import Mathlib

/-!
# A consistent-hash ring (`consistenthash.go`, `options.go`, `utils.go`)

Shallow embedding of the ring and of its operations.

* Go `string` and `[]byte` values are both modelled by `String`; the conversion
  `[]byte(s)` keeps the contents, so it is the identity here.
* `uint64` hash values and the `uint` replica count are natural numbers.  The
  code only compares hash values and uses them as map keys, and only counts
  replica indices upwards, so no wrap-around arithmetic is involved.
* A Go map is an association list searched from the front; `len`, lookup,
  assignment and `delete` are the four operations the code uses.
* A run-time panic (integer division by zero in `get`) is the result `none`.
-/

namespace ConsistentHash

/-! ## Go maps -/

/-- Go `map[K]V`: association list, a key is looked up from the front. -/
abbrev GoMap (K V : Type) := List (K × V)

namespace GoMap

variable {K V : Type} [DecidableEq K]

/-- The comma-ok lookup `v, ok := m[k]`. -/
def get? : GoMap K V → K → Option V
  | [], _ => none
  | (k', v) :: m, k => if k' = k then some v else get? m k

/-- The assignment `m[k] = v`: overwrite in place, or add a fresh entry. -/
def set : GoMap K V → K → V → GoMap K V
  | [], k, v => [(k, v)]
  | (k', v') :: m, k, v => if k' = k then (k, v) :: m else (k', v') :: set m k v

/-- The builtin `delete(m, k)`. -/
def delete (m : GoMap K V) (k : K) : GoMap K V :=
  m.filter (fun e => decide (e.1 ≠ k))

/-- The builtin `len(m)`. -/
def len (m : GoMap K V) : Nat := m.length

end GoMap

/-! ## `sort.Search` and `sort.Slice` -/

/-- The loop of `sort.Search`: `for i < j { h := (i+j)/2; if !f(h) { i = h+1 } else { j = h } }`,
run for at most `fuel` iterations. -/
def searchLoop (f : Nat → Bool) : Nat → Nat → Nat → Nat
  | 0, i, _ => i
  | fuel + 1, i, j =>
    if i < j then
      let h := (i + j) / 2
      if !f h then searchLoop f fuel (h + 1) j else searchLoop f fuel i h
    else i

/-- Go `sort.Search(n, f)`; `n` iterations are more than the loop ever needs
(`searchLoop_fuel`). -/
def Search (n : Nat) (f : Nat → Bool) : Nat := searchLoop f n 0 n

/-- Go `sort.Slice(circle, func(i, j) bool { return circle[i] < circle[j] })`:
the ascending rearrangement of the slice (unique, the elements being numbers). -/
def sortSlice (circle : List Nat) : List Nat := circle.insertionSort (· ≤ ·)

/-! ## Types -/

/-- Interface `Node`: the `String()` method; `zero` is the zero value of the
type, which Go returns for a missing map key and for an unset result. -/
class Node (T : Type) where
  String : T → String
  zero : T

/-- Type `HashFunc func(data []byte) uint64`. -/
abbrev HashFunc := String → Nat

/-- Go `sync.RWMutex`, as far as a single caller sees it: whether the write
lock is held and how many read locks are held. -/
structure RWMutex where
  writer : Bool
  readers : Nat
  deriving DecidableEq, Repr

/-- Method `Lock`. -/
def RWMutex.Lock (m : RWMutex) : RWMutex := { m with writer := true }
/-- Method `Unlock`. -/
def RWMutex.Unlock (m : RWMutex) : RWMutex := { m with writer := false }
/-- Method `RLock`. -/
def RWMutex.RLock (m : RWMutex) : RWMutex := { m with readers := m.readers + 1 }
/-- Method `RUnlock`. -/
def RWMutex.RUnlock (m : RWMutex) : RWMutex := { m with readers := m.readers - 1 }

end ConsistentHash

/-- Struct `ConsistentHash[T]`. -/
structure ConsistentHash (T : Type) where
  hashFunc : ConsistentHash.HashFunc
  replicas : Nat
  circle : List Nat
  ring : ConsistentHash.GoMap Nat T
  nodes : ConsistentHash.GoMap String T
  mu : ConsistentHash.RWMutex

namespace ConsistentHash

/-- Struct `options`; a nil `hashFunc` is `none`. -/
structure options where
  hashFunc : Option HashFunc
  replicas : Nat

/-- Type `Option func(*options)`. -/
abbrev RingOption := options → options

/-- Constant `minReplicas`. -/
def minReplicas : Nat := 101
/-- Constant `primeStr`. -/
def primeStr : String := "16777619"

/-- Function `WithHashFunc`. -/
def WithHashFunc (hashFunc : Option HashFunc) : RingOption :=
  fun o => { o with hashFunc := hashFunc }

/-- Function `WithReplicas`. -/
def WithReplicas (replicas : Nat) : RingOption :=
  fun o => { o with replicas := replicas }

/-- Function `defaultHashFunc`; the library checksum `crc32.ChecksumIEEE` is a
parameter, and widening `uint32` to `uint64` keeps the value. -/
def defaultHashFunc (checksumIEEE : String → Nat) : HashFunc :=
  fun data => checksumIEEE data

variable {T : Type} [Node T]

/-- Function `New`. -/
def New (T : Type) (checksumIEEE : String → Nat) (opts : List RingOption) : ConsistentHash T :=
  let ops : options := opts.foldl (fun o opt => opt o) { hashFunc := none, replicas := 0 }
  let ops : options := if ops.replicas < minReplicas then { ops with replicas := minReplicas } else ops
  let hashFunc : HashFunc :=
    match ops.hashFunc with
    | none => defaultHashFunc checksumIEEE
    | some f => f
  { hashFunc := hashFunc
    replicas := ops.replicas
    circle := []
    ring := []
    nodes := []
    mu := { writer := false, readers := 0 } }

/-- Method `getVnodeBytes`: `primeStr + node + strconv.FormatUint(i, 10)`. -/
def getVnodeBytes (node : String) (i : Nat) : String :=
  primeStr ++ node ++ Nat.repr i

/-- Method `contains`. -/
def contains (h : ConsistentHash T) (node : String) : Bool :=
  (h.nodes.get? node).isSome

/-- One iteration of the inner loop of `AddReplicas` (lines 85-87). -/
def addVnode (nodeString : String) (node : T) (h : ConsistentHash T) (i : Nat) :
    ConsistentHash T :=
  let hash := h.hashFunc (getVnodeBytes nodeString i)
  { h with circle := h.circle ++ [hash], ring := h.ring.set hash node }

/-- One iteration of the outer loop of `AddReplicas` (lines 78-88). -/
def addNode (replicas : Nat) (h : ConsistentHash T) (node : T) : ConsistentHash T :=
  let nodeString := Node.String node
  if contains h nodeString then h
  else
    (List.range replicas).foldl (addVnode nodeString node)
      { h with nodes := h.nodes.set nodeString node }

/-- Method `AddReplicas`. -/
def AddReplicas (replicas : Nat) (nodes : List T) (h : ConsistentHash T) : ConsistentHash T :=
  let replicas := if replicas > h.replicas then h.replicas else replicas
  let h := { h with mu := h.mu.Lock }
  let h := nodes.foldl (addNode replicas) h
  let h := { h with circle := sortSlice h.circle }
  { h with mu := h.mu.Unlock }

/-- Method `Add`. -/
def Add (nodes : List T) (h : ConsistentHash T) : ConsistentHash T :=
  AddReplicas h.replicas nodes h

/-- Function `NewWithNodes`. -/
def NewWithNodes (checksumIEEE : String → Nat) (nodes : List T) (opts : List RingOption) :
    ConsistentHash T :=
  Add nodes (New T checksumIEEE opts)

/-- One iteration of the loop of `removeNode` (lines 140-147).  `sort.Search`
only probes indices below `len(h.circle)`, so the default of `getD` is never read. -/
def removeVnode (nodeString : String) (h : ConsistentHash T) (i : Nat) : ConsistentHash T :=
  let hash := h.hashFunc (getVnodeBytes nodeString i)
  let index := Search h.circle.length (fun i => decide (h.circle.getD i 0 ≥ hash))
  let h :=
    if index < h.circle.length ∧ h.circle.getD index 0 = hash then
      { h with circle := h.circle.take index ++ h.circle.drop (index + 1) }
    else h
  { h with ring := h.ring.delete hash }

/-- Method `removeNode`. -/
def removeNode (h : ConsistentHash T) (nodeString : String) : ConsistentHash T :=
  if !contains h nodeString then h
  else
    let h := (List.range h.replicas).foldl (removeVnode nodeString) h
    { h with nodes := h.nodes.delete nodeString }

/-- Method `RemoveString`. -/
def RemoveString (nodes : List String) (h : ConsistentHash T) : ConsistentHash T :=
  let h := { h with mu := h.mu.Lock }
  let h := nodes.foldl removeNode h
  { h with mu := h.mu.Unlock }

/-- Method `Remove`. -/
def Remove (nodes : List T) (h : ConsistentHash T) : ConsistentHash T :=
  let h := { h with mu := h.mu.Lock }
  let h := nodes.foldl (fun h node => removeNode h (Node.String node)) h
  { h with mu := h.mu.Unlock }

/-- Method `get`; `none` is the panic of `% len(h.circle)` on an empty circle. -/
def get (h : ConsistentHash T) (key : String) : Option (T × Bool) :=
  if h.ring.len = 0 then some (Node.zero, false)
  else
    let hash := h.hashFunc key
    let found := Search h.circle.length (fun i => decide (h.circle.getD i 0 ≥ hash))
    if h.circle.length = 0 then none
    else
      let index := found % h.circle.length
      some ((h.ring.get? (h.circle.getD index 0)).getD Node.zero, true)

/-- Method `Get`: the result and the ring it leaves behind (the read lock is
taken, and released by the deferred `RUnlock`, also when `get` panics). -/
def Get (h : ConsistentHash T) (key : String) : Option (T × Bool) × ConsistentHash T :=
  let h := { h with mu := h.mu.RLock }
  let res := get h key
  (res, { h with mu := h.mu.RUnlock })

/-- Method `GetString`: the result and the ring it leaves behind. -/
def GetString (h : ConsistentHash T) (key : String) :
    Option (String × Bool) × ConsistentHash T :=
  let h := { h with mu := h.mu.RLock }
  let res : Option (String × Bool) :=
    match get h key with
    | none => none
    | some (node, ok) => if ok then some (Node.String node, true) else some ("", false)
  (res, { h with mu := h.mu.RUnlock })

/-- Function `mapKeys`, in the order of the association list. -/
def mapKeys {K V : Type} (m : GoMap K V) : List K := m.map Prod.fst

/-- Function `mapValues`, in the order of the association list. -/
def mapValues {K V : Type} (m : GoMap K V) : List V := m.map Prod.snd

/-- Method `GetStringNodes`. -/
def GetStringNodes (h : ConsistentHash T) : List String := mapKeys h.nodes

/-- Method `GetNodes`. -/
def GetNodes (h : ConsistentHash T) : List T := mapValues h.nodes

/-- The circle value that owns the hash `x`: the smallest circle value `≥ x`
if there is one, and `circle[0]` otherwise. -/
def IsSuccessor (circle : List Nat) (x c : Nat) : Prop :=
  (c ∈ circle ∧ x ≤ c ∧ ∀ d ∈ circle, x ≤ d → c ≤ d) ∨
  ((∀ d ∈ circle, ¬ x ≤ d) ∧ circle.head? = some c)

/-- Ring states reached from `New` by `Add`, `AddReplicas`, `Remove` and
`RemoveString` calls. -/
inductive Reachable : ConsistentHash T → Prop
  | new (checksumIEEE : String → Nat) (opts : List RingOption) :
      Reachable (New T checksumIEEE opts)
  | add (nodes : List T) (h : ConsistentHash T) :
      Reachable h → Reachable (Add nodes h)
  | addReplicas (replicas : Nat) (nodes : List T) (h : ConsistentHash T) :
      Reachable h → Reachable (AddReplicas replicas nodes h)
  | remove (nodes : List T) (h : ConsistentHash T) :
      Reachable h → Reachable (Remove nodes h)
  | removeString (nodes : List String) (h : ConsistentHash T) :
      Reachable h → Reachable (RemoveString nodes h)

/-- Ring states built from `New` by `Add` and `AddReplicas` calls only. -/
inductive Built : ConsistentHash T → Prop
  | new (checksumIEEE : String → Nat) (opts : List RingOption) :
      Built (New T checksumIEEE opts)
  | add (nodes : List T) (h : ConsistentHash T) :
      Built h → Built (Add nodes h)
  | addReplicas (replicas : Nat) (nodes : List T) (h : ConsistentHash T) :
      Built h → Built (AddReplicas replicas nodes h)

/-- Ring states built from `New` by `Add` calls and by `AddReplicas` calls with a
replica count of at least 1. -/
inductive BuiltNonzero : ConsistentHash T → Prop
  | new (checksumIEEE : String → Nat) (opts : List RingOption) :
      BuiltNonzero (New T checksumIEEE opts)
  | add (nodes : List T) (h : ConsistentHash T) :
      BuiltNonzero h → BuiltNonzero (Add nodes h)
  | addReplicas (replicas : Nat) (nodes : List T) (h : ConsistentHash T) :
      0 < replicas → BuiltNonzero h → BuiltNonzero (AddReplicas replicas nodes h)

/-- Test type `testNode string` of `consistenthash_test.go`. -/
structure testNode where
  s : String
  deriving DecidableEq, Repr

instance : Node testNode where
  String n := n.s
  zero := ⟨""⟩

end ConsistentHash

namespace ConsistentHash

/-! ## Sample rings -/

/-- A hash function for the samples: the length of the data. -/
def lengthHash : HashFunc := fun data => data.length

/-- A ring state with three virtual nodes, at 10, 20 and 30. -/
def sampleRing : ConsistentHash testNode :=
  { hashFunc := lengthHash
    replicas := 101
    circle := [10, 20, 30]
    ring := [(10, ⟨"n1"⟩), (20, ⟨"n2"⟩), (30, ⟨"n1"⟩)]
    nodes := [("n1", ⟨"n1"⟩), ("n2", ⟨"n2"⟩)]
    mu := { writer := false, readers := 0 } }

/-- A state with an entry in the ring map and none on the circle; no sequence of calls
leads to it. -/
def emptyCircleRing : ConsistentHash testNode :=
  { hashFunc := lengthHash
    replicas := 101
    circle := []
    ring := [(10, ⟨"n1"⟩)]
    nodes := [("n1", ⟨"n1"⟩)]
    mu := { writer := false, readers := 0 } }

/-- The state `sampleRing` with another membership map, replica count and lock state. -/
def sampleRingOther : ConsistentHash testNode :=
  { sampleRing with replicas := 7, nodes := [], mu := { writer := false, readers := 3 } }

end ConsistentHash

namespace ConsistentHash

/-- The hashes of the first `n` virtual nodes of the label `node`, in the order the
loops of `AddReplicas` and `removeNode` compute them. -/
def vnodeHashes (hashFunc : HashFunc) (node : String) (n : Nat) : List Nat :=
  (List.range n).map (fun i => hashFunc (getVnodeBytes node i))

end ConsistentHash

namespace ConsistentHash

variable {T : Type} [Node T]

/-- What `New`, the outer loop of `AddReplicas` and `removeNode` keep true of the maps:
a hash stored in `ring` is on the circle and is one of the virtual-node hashes of the
label of the node stored for it, that node is the member stored under its label, and
members are stored under their own labels. -/
structure Inv (h : ConsistentHash T) : Prop where
  replicas_ge : minReplicas ≤ h.replicas
  ring_mem : ∀ c n, GoMap.get? h.ring c = some n → c ∈ h.circle
  ring_label : ∀ c n, GoMap.get? h.ring c = some n →
    GoMap.get? h.nodes (Node.String n) = some n ∧
    c ∈ vnodeHashes h.hashFunc (Node.String n) h.replicas
  nodes_label : ∀ s n, GoMap.get? h.nodes s = some n → Node.String n = s

/-- Every circle value has an entry in the ring map. -/
def Owned (h : ConsistentHash T) : Prop :=
  ∀ c, c ∈ h.circle → ∃ n, GoMap.get? h.ring c = some n

end ConsistentHash

namespace ConsistentHash

variable {T : Type} [Node T]

/-- The virtual-node hashes of the member labels, for indices below the replica count,
are pairwise distinct across distinct (label, index) pairs. -/
def VnodesDistinct (h : ConsistentHash T) : Prop :=
  ∀ l₁ l₂ i₁ i₂, contains h l₁ = true → contains h l₂ = true →
    i₁ < h.replicas → i₂ < h.replicas →
    h.hashFunc (getVnodeBytes l₁ i₁) = h.hashFunc (getVnodeBytes l₂ i₂) → l₁ = l₂ ∧ i₁ = i₂

/-- A ring with one member that was added with replica count 0. -/
def zeroReplicaRing : ConsistentHash testNode :=
  AddReplicas 0 [⟨"A"⟩] (New testNode lengthHash [])

end ConsistentHash

namespace ConsistentHash

/-- A ring with one member that has two virtual nodes. -/
def smallRing : ConsistentHash testNode :=
  AddReplicas 2 [⟨"A"⟩] (New testNode lengthHash [])

end ConsistentHash

namespace ConsistentHash

/-- A hash function for the samples: the last eight bytes of the data, read as a
big-endian 64-bit number. -/
def tailHash : HashFunc :=
  fun data => data.data.foldl (fun acc c => (acc * 256 + c.toNat) % 18446744073709551616) 0

/-- A ring with the members `X` and `Y`, two virtual nodes each. -/
def twoRing : ConsistentHash testNode :=
  AddReplicas 2 [⟨"Y"⟩] (AddReplicas 2 [⟨"X"⟩] (New testNode lengthHash [WithHashFunc (some tailHash)]))

end ConsistentHash

namespace ConsistentHash

/-! ## Option lists as data -/

/-- An option as a caller writes it: `WithHashFunc(f)` or `WithReplicas(r)`. -/
inductive OptionCall where
  | withHashFunc (hashFunc : Option HashFunc)
  | withReplicas (replicas : Nat)

/-- The `Option` value that the call returns. -/
def OptionCall.toOption : OptionCall → RingOption
  | .withHashFunc f => WithHashFunc f
  | .withReplicas r => WithReplicas r

/-- The value of the last `WithReplicas` option of the list, 0 when there is none. -/
def lastReplicas (calls : List OptionCall) : Nat :=
  (calls.reverse.findSome? (fun c =>
    match c with
    | .withReplicas r => some r
    | .withHashFunc _ => none)).getD 0

end ConsistentHash

namespace ConsistentHash

/-- The number of entries of the ring map whose value is `node`. -/
def ownedEntries {T : Type} [DecidableEq T] (h : ConsistentHash T) (node : T) : Nat :=
  (h.ring.filter (fun e => decide (e.2 = node))).length

end ConsistentHash

namespace ConsistentHash

/-- A hash function of the model that maps distinct strings to distinct values: the
characters, each raised by one, read as the digits of a number in base `2^32 + 1`.  Its
values are not bounded by `2^64`. -/
def nameHash : HashFunc :=
  fun data => data.data.foldl (fun acc c => acc * 4294967297 + (c.toNat + 1)) 0

end ConsistentHash

namespace ConsistentHash

/-- A ring with the one member `X`, which has two virtual nodes. -/
def xRing : ConsistentHash testNode :=
  AddReplicas 2 [⟨"X"⟩] (New testNode lengthHash [WithHashFunc (some tailHash)])

end ConsistentHash

namespace ConsistentHash

variable {T : Type} [Node T]

/-- The virtual-node hashes of the labels of a list, for indices below `replicas`, are
pairwise distinct across distinct (label, index) pairs. -/
def DistinctOn (hashFunc : HashFunc) (replicas : Nat) (labels : List String) : Prop :=
  ∀ l₁ l₂ i₁ i₂, l₁ ∈ labels → l₂ ∈ labels → i₁ < replicas → i₂ < replicas →
    hashFunc (getVnodeBytes l₁ i₁) = hashFunc (getVnodeBytes l₂ i₂) → l₁ = l₂ ∧ i₁ = i₂

/-- Ring states reached from `New` by `Add` and `AddReplicas` calls whose nodes carry
labels of the list `labels`, and by `Remove` and `RemoveString` calls, together with the
replica count that each label was requested with when it last became a member. -/
inductive ReachedWith (labels : List String) : ConsistentHash T → (String → Nat) → Prop
  | new (checksumIEEE : String → Nat) (opts : List RingOption) :
      ReachedWith labels (New T checksumIEEE opts) (fun _ => 0)
  | add (nodes : List T) (h : ConsistentHash T) (req : String → Nat) :
      ReachedWith labels h req → (∀ n, n ∈ nodes → Node.String n ∈ labels) →
      ReachedWith labels (Add nodes h)
        (fun l => if contains h l = false ∧ l ∈ nodes.map Node.String then h.replicas else req l)
  | addReplicas (replicas : Nat) (nodes : List T) (h : ConsistentHash T) (req : String → Nat) :
      ReachedWith labels h req → (∀ n, n ∈ nodes → Node.String n ∈ labels) →
      ReachedWith labels (AddReplicas replicas nodes h)
        (fun l => if contains h l = false ∧ l ∈ nodes.map Node.String then replicas else req l)
  | remove (nodes : List T) (h : ConsistentHash T) (req : String → Nat) :
      ReachedWith labels h req → ReachedWith labels (Remove nodes h) req
  | removeString (nodes : List String) (h : ConsistentHash T) (req : String → Nat) :
      ReachedWith labels h req → ReachedWith labels (RemoveString nodes h) req

/-- The ring map holds, for each member label and each index below the effective replica
count of that label, the member under the hash of that virtual node, and nothing else;
its keys are pairwise different, and the member labels are labels of the list. -/
structure Exact (labels : List String) (h : ConsistentHash T) (req : String → Nat) : Prop where
  keys_nodup : (mapKeys h.ring).Nodup
  members : ∀ l, contains h l = true → l ∈ labels
  entries : ∀ c n, GoMap.get? h.ring c = some n ↔
    ∃ l i, GoMap.get? h.nodes l = some n ∧ i < min (req l) h.replicas ∧
      c = h.hashFunc (getVnodeBytes l i)

end ConsistentHash
set_option linter.unusedSectionVars false

namespace ConsistentHash

/-! ## Go maps: lookup after assignment and deletion -/

namespace GoMap
variable {K V : Type} [DecidableEq K]

theorem get?_set (m : GoMap K V) (k k' : K) (v : V) :
    GoMap.get? (GoMap.set m k v) k' = if k = k' then some v else GoMap.get? m k' := by
  induction m with
  | nil => simp [set, get?]
  | cons e m ih =>
    obtain ⟨a, b⟩ := e
    simp only [set, get?]
    by_cases hak : a = k
    · subst hak
      simp only [if_true, get?]
      by_cases hak' : a = k' <;> simp [hak']
    · simp only [hak, if_false, get?, ih]
      by_cases hak' : a = k'
      · subst hak'
        have : ¬ k = a := fun h => hak h.symm
        simp [this]
      · simp [hak']

theorem get?_delete (m : GoMap K V) (k k' : K) :
    GoMap.get? (GoMap.delete m k) k' = if k = k' then none else GoMap.get? m k' := by
  induction m with
  | nil => simp [delete, get?]
  | cons e m ih =>
    obtain ⟨a, b⟩ := e
    have ih' : GoMap.get? (List.filter (fun e => decide (e.1 ≠ k)) m) k' =
        if k = k' then none else GoMap.get? m k' := ih
    simp only [delete, List.filter_cons]
    by_cases hak : a = k
    · subst hak
      simp only [ne_eq, not_true_eq_false, decide_False, Bool.false_eq_true, if_false, ih', get?]
      by_cases hak' : a = k' <;> simp [hak']
    · simp only [ne_eq, hak, not_false_eq_true, decide_True, if_true, get?, ih']
      by_cases hak' : a = k'
      · subst hak'
        have : ¬ k = a := fun h => hak h.symm
        simp [this]
      · simp [hak']

theorem ne_nil_of_get? (m : GoMap K V) (k : K) (v : V) (h : GoMap.get? m k = some v) : m ≠ [] := by
  intro hm
  subst hm
  simp [get?] at h

theorem len_ne_zero_of_get? (m : GoMap K V) (k : K) (v : V) (h : GoMap.get? m k = some v) :
    m.len ≠ 0 := by
  have := ne_nil_of_get? m k v h
  simpa [len] using this

end GoMap

/-! ## `sort.Search` -/

theorem searchLoop_bounds (f : Nat → Bool) :
    ∀ fuel i j, i ≤ j → i ≤ searchLoop f fuel i j ∧ searchLoop f fuel i j ≤ j := by
  intro fuel
  induction fuel with
  | zero => intro i j hij; simp [searchLoop, hij]
  | succ fuel ih =>
    intro i j hij
    unfold searchLoop
    by_cases hlt : i < j
    · simp only [hlt, if_true]
      have h1 : i ≤ (i + j) / 2 := by omega
      have h2 : (i + j) / 2 < j := by omega
      by_cases hf : f ((i + j) / 2) = true
      · simp only [hf, Bool.not_true, Bool.false_eq_true, if_false]
        have := ih i ((i + j) / 2) h1
        omega
      · simp only [hf, Bool.not_eq_true] at *
        simp only [hf, Bool.not_false, if_true]
        have := ih ((i + j) / 2 + 1) j (by omega)
        omega
    · simp [hlt, hij]

theorem searchLoop_fuel (f : Nat → Bool) :
    ∀ fuel i j, j - i ≤ fuel → searchLoop f fuel i j = searchLoop f (j - i) i j := by
  intro fuel
  induction fuel using Nat.strong_induction_on with
  | _ fuel ih =>
    intro i j hle
    by_cases hlt : i < j
    · obtain ⟨fuel', rfl⟩ : ∃ k, fuel = k + 1 := ⟨fuel - 1, by omega⟩
      obtain ⟨d, hd⟩ : ∃ d, j - i = d + 1 := ⟨j - i - 1, by omega⟩
      rw [hd]
      unfold searchLoop
      simp only [hlt, if_true]
      by_cases hf : f ((i + j) / 2) = true
      · simp only [hf, Bool.not_true, Bool.false_eq_true, if_false]
        rw [ih fuel' (by omega) i ((i + j) / 2) (by omega),
          ih d (by omega) i ((i + j) / 2) (by omega)]
      · simp only [Bool.not_eq_true] at hf
        simp only [hf, Bool.not_false, if_true]
        rw [ih fuel' (by omega) ((i + j) / 2 + 1) j (by omega),
          ih d (by omega) ((i + j) / 2 + 1) j (by omega)]
    · have hz : j - i = 0 := by omega
      rw [hz]
      cases fuel with
      | zero => rfl
      | succ k => simp [searchLoop, hlt]

theorem searchLoop_spec (f : Nat → Bool) (n : Nat)
    (hmono : ∀ a b, a ≤ b → b < n → f a = true → f b = true) :
    ∀ fuel i j, i ≤ j → j ≤ n → j - i ≤ fuel →
      (∀ a, i ≤ a → a < searchLoop f fuel i j → f a = false) ∧
      (searchLoop f fuel i j < j → f (searchLoop f fuel i j) = true) := by
  intro fuel
  induction fuel with
  | zero =>
    intro i j hij _ hfu
    have : i = j := by omega
    subst this
    simp only [searchLoop]
    exact ⟨fun a h1 h2 => by omega, fun h => by omega⟩
  | succ fuel ih =>
    intro i j hij hjn hfu
    unfold searchLoop
    by_cases hlt : i < j
    · simp only [hlt, if_true]
      have h1 : i ≤ (i + j) / 2 := by omega
      have h2 : (i + j) / 2 < j := by omega
      by_cases hf : f ((i + j) / 2) = true
      · simp only [hf, Bool.not_true, Bool.false_eq_true, if_false]
        obtain ⟨ihA, ihB⟩ := ih i ((i + j) / 2) h1 (by omega) (by omega)
        refine ⟨ihA, fun _ => ?_⟩
        have hb := (searchLoop_bounds f fuel i ((i + j) / 2) h1).2
        rcases Nat.lt_or_ge (searchLoop f fuel i ((i + j) / 2)) ((i + j) / 2) with hlt' | hge
        · exact ihB hlt'
        · have : searchLoop f fuel i ((i + j) / 2) = (i + j) / 2 := by omega
          rw [this]; exact hf
      · have hf' : f ((i + j) / 2) = false := by simpa using hf
        simp only [hf', Bool.not_false, if_true]
        obtain ⟨ihA, ihB⟩ := ih ((i + j) / 2 + 1) j (by omega) hjn (by omega)
        refine ⟨fun a ha1 ha2 => ?_, ihB⟩
        rcases Nat.lt_or_ge ((i + j) / 2) a with hlt' | hge
        · exact ihA a hlt' ha2
        · cases hfa : f a with
          | false => rfl
          | true =>
            have := hmono a ((i + j) / 2) hge (by omega) hfa
            rw [hf'] at this; exact absurd this (by simp)
    · rw [if_neg hlt]
      exact ⟨fun a h1 h2 => by omega, fun h => absurd h hlt⟩

end ConsistentHash
namespace ConsistentHash

/-! ## `sort.Search` on a sorted circle -/

theorem getD_mono (l : List Nat) (hs : l.Sorted (· ≤ ·)) (a b : Nat) (hab : a ≤ b)
    (hb : b < l.length) : l.getD a 0 ≤ l.getD b 0 := by
  have ha : a < l.length := by omega
  rw [List.getD_eq_getElem l 0 ha, List.getD_eq_getElem l 0 hb]
  have := List.Sorted.rel_get_of_le hs (a := ⟨a, ha⟩) (b := ⟨b, hb⟩) (by simpa using hab)
  simpa using this

theorem search_sorted (l : List Nat) (hs : l.Sorted (· ≤ ·)) (x : Nat) :
    Search l.length (fun i => decide (l.getD i 0 ≥ x)) ≤ l.length ∧
    (∀ a, a < Search l.length (fun i => decide (l.getD i 0 ≥ x)) → l.getD a 0 < x) ∧
    (Search l.length (fun i => decide (l.getD i 0 ≥ x)) < l.length →
      x ≤ l.getD (Search l.length (fun i => decide (l.getD i 0 ≥ x))) 0) := by
  have hmono : ∀ a b, a ≤ b → b < l.length →
      (fun i => decide (l.getD i 0 ≥ x)) a = true → (fun i => decide (l.getD i 0 ≥ x)) b = true := by
    intro a b hab hb ha
    simp only [ge_iff_le, decide_eq_true_eq] at ha ⊢
    exact le_trans ha (getD_mono l hs a b hab hb)
  have hb := searchLoop_bounds (fun i => decide (l.getD i 0 ≥ x)) l.length 0 l.length (Nat.zero_le _)
  obtain ⟨h1, h2⟩ := searchLoop_spec (fun i => decide (l.getD i 0 ≥ x)) l.length hmono
    l.length 0 l.length (Nat.zero_le _) (le_refl _) (by omega)
  refine ⟨hb.2, fun a ha => ?_, fun hlt => ?_⟩
  · have := h1 a (Nat.zero_le _) ha
    simpa using this
  · have := h2 hlt
    simpa using this

/-! ## The successor of a hash on the circle -/

theorem isSuccessor_unique (l : List Nat) (x c c' : Nat)
    (h : IsSuccessor l x c) (h' : IsSuccessor l x c') : c = c' := by
  rcases h with ⟨hm, hx, hmin⟩ | ⟨hno, hh⟩
  · rcases h' with ⟨hm', hx', hmin'⟩ | ⟨hno', _⟩
    · exact le_antisymm (hmin c' hm' hx') (hmin' c hm hx)
    · exact absurd hx (hno' c hm)
  · rcases h' with ⟨hm', hx', _⟩ | ⟨_, hh'⟩
    · exact absurd hx' (hno c' hm')
    · rw [hh] at hh'
      exact Option.some.inj hh'

theorem isSuccessor_ne_nil (l : List Nat) (x c : Nat) (h : IsSuccessor l x c) : l ≠ [] := by
  rintro rfl
  rcases h with ⟨hm, _⟩ | ⟨_, hh⟩
  · simp at hm
  · simp at hh

theorem isSuccessor_mem (l : List Nat) (x c : Nat) (h : IsSuccessor l x c) : c ∈ l := by
  rcases h with ⟨hm, _⟩ | ⟨_, hh⟩
  · exact hm
  · exact List.mem_of_mem_head? hh

theorem isSuccessor_search (l : List Nat) (hs : l.Sorted (· ≤ ·)) (hne : l ≠ []) (x : Nat) :
    IsSuccessor l x
      (l.getD (Search l.length (fun i => decide (l.getD i 0 ≥ x)) % l.length) 0) := by
  obtain ⟨hle, hlow, hhigh⟩ := search_sorted l hs x
  have hpos : 0 < l.length := List.length_pos.mpr hne
  rcases Nat.lt_or_ge (Search l.length (fun i => decide (l.getD i 0 ≥ x))) l.length with hlt | hge
  · rw [Nat.mod_eq_of_lt hlt]
    left
    refine ⟨?_, hhigh hlt, ?_⟩
    · rw [List.getD_eq_getElem l 0 hlt]
      exact List.getElem_mem _
    · intro d hd hxd
      obtain ⟨b, hb, rfl⟩ := List.getElem_of_mem hd
      rcases Nat.lt_or_ge b (Search l.length (fun i => decide (l.getD i 0 ≥ x))) with hbr | hbr
      · have := hlow b hbr
        rw [List.getD_eq_getElem l 0 hb] at this
        omega
      · have := getD_mono l hs _ b hbr hb
        rwa [List.getD_eq_getElem l 0 hb] at this
  · have heq : Search l.length (fun i => decide (l.getD i 0 ≥ x)) = l.length := by omega
    rw [heq, Nat.mod_self]
    right
    refine ⟨?_, ?_⟩
    · intro d hd hxd
      obtain ⟨b, hb, rfl⟩ := List.getElem_of_mem hd
      have := hlow b (by omega)
      rw [List.getD_eq_getElem l 0 hb] at this
      omega
    · cases l with
      | nil => exact absurd rfl hne
      | cons a t => simp

/-- A successor on a sorted circle that survives on a sorted part of it is
the successor there. -/
theorem isSuccessor_of_subset (l l' : List Nat) (hs : l.Sorted (· ≤ ·))
    (hs' : l'.Sorted (· ≤ ·)) (hsub : ∀ d ∈ l', d ∈ l) (x c : Nat) (hc : c ∈ l')
    (h : IsSuccessor l x c) : IsSuccessor l' x c := by
  rcases h with ⟨_, hx, hmin⟩ | ⟨hno, hh⟩
  · exact Or.inl ⟨hc, hx, fun d hd hxd => hmin d (hsub d hd) hxd⟩
  · right
    refine ⟨fun d hd => hno d (hsub d hd), ?_⟩
    cases l' with
    | nil => simp at hc
    | cons a t =>
      cases l with
      | nil => simp at hh
      | cons b u =>
        simp only [List.head?_cons, Option.some.injEq] at hh ⊢
        subst hh
        have h1 : a ≤ b := by
          rcases List.mem_cons.mp hc with h | h
          · omega
          · exact List.rel_of_sorted_cons hs' b h
        have h2 : b ≤ a := by
          rcases List.mem_cons.mp (hsub a (List.mem_cons_self _ _)) with h | h
          · omega
          · exact List.rel_of_sorted_cons hs a h
        omega

/-! ## `get` on a sorted circle -/

variable {T : Type} [Node T]

theorem get_eq_of_isSuccessor (h : ConsistentHash T) (key : String) (c : Nat)
    (hs : h.circle.Sorted (· ≤ ·)) (hr : h.ring ≠ [])
    (hc : IsSuccessor h.circle (h.hashFunc key) c) :
    get h key = some ((GoMap.get? h.ring c).getD Node.zero, true) := by
  have hne := isSuccessor_ne_nil _ _ _ hc
  have hlen : h.circle.length ≠ 0 := by
    intro h0
    exact hne (List.length_eq_zero.mp h0)
  have hrl : GoMap.len h.ring ≠ 0 := by
    intro h0
    exact hr (List.length_eq_zero.mp h0)
  have hsucc := isSuccessor_search h.circle hs hne (h.hashFunc key)
  have := isSuccessor_unique _ _ _ _ hc hsucc
  unfold get
  simp only [hrl, if_false, hlen]
  rw [← this]

end ConsistentHash
namespace ConsistentHash

variable {T : Type} [Node T]

/-! ## Lookup -/

theorem Get_fst (h : ConsistentHash T) (key : String) : (Get h key).1 = get h key := rfl

theorem Get_snd (h : ConsistentHash T) (key : String) : (Get h key).2 = h := by
  cases h with
  | mk hf r c rg n mu =>
    cases mu with
    | mk w rd => simp [Get, RWMutex.RLock, RWMutex.RUnlock]

theorem GetString_fst (h : ConsistentHash T) (key : String) :
    (GetString h key).1 =
      match get h key with
      | none => none
      | some (node, ok) => if ok then some (Node.String node, true) else some ("", false) := rfl

/-- C1 as stated fails: the state `emptyCircleRing` has an ascending (empty) circle and a
non-empty ring map, and there `Get` does not report found: `% len(h.circle)` divides by
zero. -/
theorem Get_empty_circle_panics :
    emptyCircleRing.circle.Sorted (· ≤ ·) ∧ GoMap.len emptyCircleRing.ring ≠ 0 ∧
    (Get emptyCircleRing "key").1 = none := by
  decide

/-- C1, amended: on a ring state with an ascending, non-empty circle and a non-empty ring
map, there is a circle value `c` that is the smallest one `≥ hashFunc(k)` or, when there
is none, `circle[0]`, and `Get(k)` reports found and returns `ring[c]` for it. -/
theorem Get_successor_wrap (h : ConsistentHash T) (key : String)
    (hs : h.circle.Sorted (· ≤ ·)) (hc : h.circle ≠ []) (hr : GoMap.len h.ring ≠ 0) :
    (∃ c, IsSuccessor h.circle (h.hashFunc key) c) ∧
    (∀ c, IsSuccessor h.circle (h.hashFunc key) c →
      (Get h key).1 = some ((GoMap.get? h.ring c).getD Node.zero, true)) := by
  have hr' : h.ring ≠ [] := by
    intro h0
    rw [h0] at hr
    exact hr rfl
  refine ⟨⟨_, isSuccessor_search h.circle hs hc (h.hashFunc key)⟩, fun c hsucc => ?_⟩
  rw [Get_fst]
  exact get_eq_of_isSuccessor h key c hs hr' hsucc

theorem Get_successor_wrap_witness :
    (sampleRing.circle.Sorted (· ≤ ·) ∧ sampleRing.circle ≠ [] ∧
      GoMap.len sampleRing.ring ≠ 0) ∧
    (IsSuccessor sampleRing.circle (sampleRing.hashFunc "a key of 24 characters..") 30 ∧
      (Get sampleRing "a key of 24 characters..").1 = some (⟨"n1"⟩, true)) ∧
    (IsSuccessor sampleRing.circle (sampleRing.hashFunc "a key of more than 30 characters") 10 ∧
      (Get sampleRing "a key of more than 30 characters").1 = some (⟨"n1"⟩, true)) := by
  have hs : sampleRing.circle.Sorted (· ≤ ·) := by decide
  have hc : sampleRing.circle ≠ [] := by decide
  have hr : GoMap.len sampleRing.ring ≠ 0 := by decide
  have h1 : IsSuccessor sampleRing.circle (sampleRing.hashFunc "a key of 24 characters..") 30 :=
    Or.inl (by decide)
  have h2 : IsSuccessor sampleRing.circle
      (sampleRing.hashFunc "a key of more than 30 characters") 10 := Or.inr (by decide)
  exact ⟨⟨hs, hc, hr⟩,
    ⟨h1, (Get_successor_wrap sampleRing "a key of 24 characters.." hs hc hr).2 30 h1⟩,
    ⟨h2, (Get_successor_wrap sampleRing "a key of more than 30 characters" hs hc hr).2 10 h2⟩⟩

/-- C7: `Get(k)` is a function of `circle`, `ring`, `hashFunc` and `k` alone, and it
hands the ring back as it found it; so a second `Get(k)` returns what the first did. -/
theorem Get_deterministic_readonly (h h' : ConsistentHash T) (key : String)
    (hc : h.circle = h'.circle) (hr : h.ring = h'.ring) (hf : h.hashFunc = h'.hashFunc) :
    (Get h key).1 = (Get h' key).1 ∧ (Get h key).2 = h ∧
    (Get (Get h key).2 key).1 = (Get h key).1 := by
  refine ⟨?_, Get_snd h key, by rw [Get_snd]⟩
  simp only [Get_fst, get, hc, hr, hf]

theorem Get_deterministic_readonly_witness :
    (sampleRing.circle = sampleRingOther.circle ∧ sampleRing.ring = sampleRingOther.ring ∧
      sampleRing.hashFunc = sampleRingOther.hashFunc) ∧
    sampleRing.nodes ≠ sampleRingOther.nodes ∧
    ((Get sampleRing "key").1 = (Get sampleRingOther "key").1 ∧
      (Get sampleRing "key").2 = sampleRing ∧
      (Get (Get sampleRing "key").2 "key").1 = (Get sampleRing "key").1) :=
  ⟨⟨rfl, rfl, rfl⟩, by decide, Get_deterministic_readonly sampleRing sampleRingOther "key" rfl rfl rfl⟩

/-- C8: on the ring returned by `New`, whatever the options, `Get(k)` returns found=false
(with the zero value) and `GetString(k)` returns `("", false)`. -/
theorem New_not_found (checksumIEEE : String → Nat) (opts : List RingOption) (key : String) :
    (Get (New T checksumIEEE opts) key).1 = some (Node.zero, false) ∧
    (GetString (New T checksumIEEE opts) key).1 = some ("", false) := by
  have hg : get (New T checksumIEEE opts) key = some (Node.zero, false) := by
    simp [get, New, GoMap.len]
  refine ⟨by rw [Get_fst, hg], ?_⟩
  rw [GetString_fst, hg]
  simp

end ConsistentHash
namespace ConsistentHash

variable {T : Type} [Node T]

/-! ## The loops of `AddReplicas` -/

theorem mem_vnodeHashes (hashFunc : HashFunc) (node : String) (n c : Nat) :
    c ∈ vnodeHashes hashFunc node n ↔ ∃ i, i < n ∧ c = hashFunc (getVnodeBytes node i) := by
  simp only [vnodeHashes, List.mem_map, List.mem_range]
  constructor
  · rintro ⟨i, hi, rfl⟩; exact ⟨i, hi, rfl⟩
  · rintro ⟨i, hi, rfl⟩; exact ⟨i, hi, rfl⟩

theorem foldl_addVnode (s : String) (node : T) (l : List Nat) (h : ConsistentHash T) :
    (l.foldl (addVnode s node) h).hashFunc = h.hashFunc ∧
    (l.foldl (addVnode s node) h).replicas = h.replicas ∧
    (l.foldl (addVnode s node) h).nodes = h.nodes ∧
    (l.foldl (addVnode s node) h).mu = h.mu ∧
    (l.foldl (addVnode s node) h).circle =
      h.circle ++ l.map (fun i => h.hashFunc (getVnodeBytes s i)) ∧
    ∀ c, GoMap.get? (l.foldl (addVnode s node) h).ring c =
      if c ∈ l.map (fun i => h.hashFunc (getVnodeBytes s i)) then some node
      else GoMap.get? h.ring c := by
  induction l generalizing h with
  | nil => simp
  | cons i l ih =>
    obtain ⟨h1, h2, h3, h4, h5, h6⟩ := ih (addVnode s node h i)
    simp only [List.foldl_cons]
    refine ⟨by rw [h1]; rfl, by rw [h2]; rfl, by rw [h3]; rfl, by rw [h4]; rfl, ?_, ?_⟩
    · rw [h5]
      simp [addVnode]
    · intro c
      rw [h6]
      have hf : (addVnode s node h i).hashFunc = h.hashFunc := rfl
      have hr : (addVnode s node h i).ring =
          GoMap.set h.ring (h.hashFunc (getVnodeBytes s i)) node := rfl
      rw [hf, hr, GoMap.get?_set]
      simp only [List.map_cons, List.mem_cons]
      by_cases hc : c ∈ l.map (fun i => h.hashFunc (getVnodeBytes s i))
      · simp [hc]
      · by_cases hi : h.hashFunc (getVnodeBytes s i) = c
        · simp [hi]
        · have hi' : ¬ c = h.hashFunc (getVnodeBytes s i) := fun e => hi e.symm
          simp [hc, hi, hi']

/-- What one round of the outer loop of `AddReplicas` does for a label that is not a
member. -/
theorem addNode_new (r : Nat) (h : ConsistentHash T) (node : T)
    (hn : contains h (Node.String node) = false) :
    (addNode r h node).hashFunc = h.hashFunc ∧
    (addNode r h node).replicas = h.replicas ∧
    (addNode r h node).mu = h.mu ∧
    (addNode r h node).nodes = GoMap.set h.nodes (Node.String node) node ∧
    (addNode r h node).circle = h.circle ++ vnodeHashes h.hashFunc (Node.String node) r ∧
    ∀ c, GoMap.get? (addNode r h node).ring c =
      if c ∈ vnodeHashes h.hashFunc (Node.String node) r then some node
      else GoMap.get? h.ring c := by
  have := foldl_addVnode (Node.String node) node (List.range r)
    { h with nodes := GoMap.set h.nodes (Node.String node) node }
  simp only [addNode, hn, Bool.false_eq_true, if_false, vnodeHashes]
  exact ⟨this.1, this.2.1, this.2.2.2.1, this.2.2.1, this.2.2.2.2.1, this.2.2.2.2.2⟩

theorem addNode_old (r : Nat) (h : ConsistentHash T) (node : T)
    (hn : contains h (Node.String node) = true) : addNode r h node = h := by
  simp [addNode, hn]

theorem contains_iff (h : ConsistentHash T) (s : String) :
    contains h s = true ↔ ∃ n, GoMap.get? h.nodes s = some n := by
  simp [contains, Option.isSome_iff_exists]

theorem contains_false_iff (h : ConsistentHash T) (s : String) :
    contains h s = false ↔ GoMap.get? h.nodes s = none := by
  simp [contains]

end ConsistentHash
namespace ConsistentHash

variable {T : Type} [Node T]

/-! ## Invariants of the mutations -/

theorem vnodeHashes_mono (hashFunc : HashFunc) (node : String) (r n c : Nat) (hrn : r ≤ n)
    (hc : c ∈ vnodeHashes hashFunc node r) : c ∈ vnodeHashes hashFunc node n := by
  rw [mem_vnodeHashes] at hc ⊢
  obtain ⟨i, hi, rfl⟩ := hc
  exact ⟨i, by omega, rfl⟩

theorem New_inv (checksumIEEE : String → Nat) (opts : List RingOption) :
    Inv (New T checksumIEEE opts) := by
  refine ⟨?_, ?_, ?_, ?_⟩
  · unfold New
    dsimp only
    split
    · exact le_refl _
    · next hlt => exact Nat.le_of_not_lt hlt
  · intro c n hc; simp [New, GoMap.get?] at hc
  · intro c n hc; simp [New, GoMap.get?] at hc
  · intro s n hs; simp [New, GoMap.get?] at hs

theorem addNode_inv (r : Nat) (h : ConsistentHash T) (node : T) (hr : r ≤ h.replicas)
    (hi : Inv h) : Inv (addNode r h node) := by
  cases hn : contains h (Node.String node) with
  | true => rw [addNode_old r h node hn]; exact hi
  | false =>
    obtain ⟨e1, e2, _, e4, e5, e6⟩ := addNode_new r h node hn
    have hnone := (contains_false_iff h _).mp hn
    refine ⟨by rw [e2]; exact hi.replicas_ge, ?_, ?_, ?_⟩
    · intro c n hc
      rw [e6] at hc
      rw [e5, List.mem_append]
      by_cases hm : c ∈ vnodeHashes h.hashFunc (Node.String node) r
      · exact Or.inr hm
      · rw [if_neg hm] at hc
        exact Or.inl (hi.ring_mem c n hc)
    · intro c n hc
      rw [e6] at hc
      rw [e1, e2, e4, GoMap.get?_set]
      by_cases hm : c ∈ vnodeHashes h.hashFunc (Node.String node) r
      · rw [if_pos hm] at hc
        have : node = n := Option.some.inj hc
        subst this
        exact ⟨by simp, vnodeHashes_mono _ _ _ _ _ hr hm⟩
      · rw [if_neg hm] at hc
        obtain ⟨h1, h2⟩ := hi.ring_label c n hc
        refine ⟨?_, h2⟩
        have hne : ¬ Node.String node = Node.String n := by
          intro e
          rw [e, h1] at hnone
          exact absurd hnone (by simp)
        rw [if_neg hne]
        exact h1
    · intro s n hs
      rw [e4, GoMap.get?_set] at hs
      by_cases he : Node.String node = s
      · rw [if_pos he] at hs
        have : node = n := Option.some.inj hs
        subst this
        exact he
      · rw [if_neg he] at hs
        exact hi.nodes_label s n hs

theorem addNode_owned (r : Nat) (h : ConsistentHash T) (node : T) (ho : Owned h) :
    Owned (addNode r h node) := by
  cases hn : contains h (Node.String node) with
  | true => rw [addNode_old r h node hn]; exact ho
  | false =>
    obtain ⟨_, _, _, _, e5, e6⟩ := addNode_new r h node hn
    intro c hc
    rw [e6]
    by_cases hm : c ∈ vnodeHashes h.hashFunc (Node.String node) r
    · exact ⟨node, by rw [if_pos hm]⟩
    · rw [if_neg hm]
      rw [e5, List.mem_append] at hc
      rcases hc with hc | hc
      · exact ho c hc
      · exact absurd hc hm

theorem addNode_fields (r : Nat) (h : ConsistentHash T) (node : T) :
    (addNode r h node).hashFunc = h.hashFunc ∧ (addNode r h node).replicas = h.replicas ∧
    (addNode r h node).mu = h.mu := by
  cases hn : contains h (Node.String node) with
  | true => rw [addNode_old r h node hn]; exact ⟨rfl, rfl, rfl⟩
  | false =>
    obtain ⟨e1, e2, e3, _⟩ := addNode_new r h node hn
    exact ⟨e1, e2, e3⟩

theorem foldl_addNode (r : Nat) (nodes : List T) (h : ConsistentHash T) (hr : r ≤ h.replicas) :
    (nodes.foldl (addNode r) h).hashFunc = h.hashFunc ∧
    (nodes.foldl (addNode r) h).replicas = h.replicas ∧
    (nodes.foldl (addNode r) h).mu = h.mu ∧
    (Inv h → Inv (nodes.foldl (addNode r) h)) ∧
    (Owned h → Owned (nodes.foldl (addNode r) h)) := by
  induction nodes generalizing h with
  | nil => exact ⟨rfl, rfl, rfl, id, id⟩
  | cons n ns ih =>
    obtain ⟨f1, f2, f3⟩ := addNode_fields r h n
    obtain ⟨e1, e2, e3, e4, e5⟩ := ih (addNode r h n) (by rw [f2]; exact hr)
    simp only [List.foldl_cons]
    exact ⟨by rw [e1, f1], by rw [e2, f2], by rw [e3, f3],
      fun hi => e4 (addNode_inv r h n hr hi), fun ho => e5 (addNode_owned r h n ho)⟩

theorem sortSlice_sorted (l : List Nat) : (sortSlice l).Sorted (· ≤ ·) :=
  List.sorted_insertionSort (· ≤ ·) l

theorem mem_sortSlice (l : List Nat) (c : Nat) : c ∈ sortSlice l ↔ c ∈ l :=
  List.mem_insertionSort (· ≤ ·)

theorem sortSlice_eq (l : List Nat) (hs : l.Sorted (· ≤ ·)) : sortSlice l = l :=
  List.Sorted.insertionSort_eq hs

/-- Method `AddReplicas`, its fields written out. -/
theorem AddReplicas_fields (r : Nat) (nodes : List T) (h : ConsistentHash T) :
    (AddReplicas r nodes h).hashFunc = h.hashFunc ∧
    (AddReplicas r nodes h).replicas = h.replicas ∧
    (AddReplicas r nodes h).circle =
      sortSlice (nodes.foldl (addNode (if r > h.replicas then h.replicas else r))
        { h with mu := h.mu.Lock }).circle ∧
    (AddReplicas r nodes h).ring =
      (nodes.foldl (addNode (if r > h.replicas then h.replicas else r))
        { h with mu := h.mu.Lock }).ring ∧
    (AddReplicas r nodes h).nodes =
      (nodes.foldl (addNode (if r > h.replicas then h.replicas else r))
        { h with mu := h.mu.Lock }).nodes := by
  have hle : (if r > h.replicas then h.replicas else r) ≤ h.replicas := by
    split_ifs <;> omega
  obtain ⟨e1, e2, _⟩ := foldl_addNode (if r > h.replicas then h.replicas else r) nodes
    { h with mu := h.mu.Lock } hle
  exact ⟨e1, e2, rfl, rfl, rfl⟩

theorem AddReplicas_inv (r : Nat) (nodes : List T) (h : ConsistentHash T) (hi : Inv h) :
    Inv (AddReplicas r nodes h) ∧ (AddReplicas r nodes h).circle.Sorted (· ≤ ·) ∧
    (Owned h → Owned (AddReplicas r nodes h)) := by
  have hle : (if r > h.replicas then h.replicas else r) ≤ h.replicas := by
    split_ifs <;> omega
  obtain ⟨e1, e2, _, e4, e5⟩ := foldl_addNode (if r > h.replicas then h.replicas else r) nodes
    { h with mu := h.mu.Lock } hle
  obtain ⟨a1, a2, a3, a4, a5⟩ := AddReplicas_fields r nodes h
  have hi' : Inv { h with mu := h.mu.Lock } :=
    ⟨hi.replicas_ge, hi.ring_mem, hi.ring_label, hi.nodes_label⟩
  have hI := e4 hi'
  refine ⟨⟨?_, ?_, ?_, ?_⟩, by rw [a3]; exact sortSlice_sorted _, ?_⟩
  · rw [a2]; exact hi.replicas_ge
  · intro c n hc
    rw [a4] at hc
    rw [a3, mem_sortSlice]
    exact hI.ring_mem c n hc
  · intro c n hc
    rw [a4] at hc
    rw [a5, a1, a2]
    have := hI.ring_label c n hc
    rw [e1, e2] at this
    exact this
  · intro s n hs
    rw [a5] at hs
    exact hI.nodes_label s n hs
  · intro ho c hc
    rw [a3, mem_sortSlice] at hc
    rw [a4]
    exact e5 ho c hc

end ConsistentHash
namespace ConsistentHash

variable {T : Type} [Node T]

/-! ## The loop of `removeNode` -/

theorem erase_eq_eraseIdx_of_first (l : List Nat) (x r : Nat) (hr : r < l.length)
    (hx : l.getD r 0 = x) (hfirst : ∀ a, a < r → l.getD a 0 ≠ x) :
    l.erase x = l.eraseIdx r := by
  induction l generalizing r with
  | nil => simp at hr
  | cons y t ih =>
    cases r with
    | zero =>
      have : y = x := by simpa using hx
      subst this
      simp
    | succ r' =>
      have hy : y ≠ x := by simpa using hfirst 0 (Nat.succ_pos _)
      have hr' : r' < t.length := by simpa using hr
      have hx' : t.getD r' 0 = x := by simpa using hx
      have hf' : ∀ a, a < r' → t.getD a 0 ≠ x := by
        intro a ha
        have := hfirst (a + 1) (by omega)
        simpa using this
      rw [List.erase_cons_tail (by simpa using hy), List.eraseIdx_cons_succ, ih r' hr' hx' hf']

/-- On an ascending circle, the search-and-splice of `removeNode` deletes the first
entry equal to the hash, if there is one. -/
theorem search_splice_eq_erase (l : List Nat) (hs : l.Sorted (· ≤ ·)) (x : Nat) :
    (if Search l.length (fun i => decide (l.getD i 0 ≥ x)) < l.length ∧
        l.getD (Search l.length (fun i => decide (l.getD i 0 ≥ x))) 0 = x then
      l.take (Search l.length (fun i => decide (l.getD i 0 ≥ x))) ++
        l.drop (Search l.length (fun i => decide (l.getD i 0 ≥ x)) + 1)
    else l) = l.erase x := by
  obtain ⟨_, hlow, hhigh⟩ := search_sorted l hs x
  split_ifs with hcond
  · rw [← List.eraseIdx_eq_take_drop_succ]
    symm
    apply erase_eq_eraseIdx_of_first l x _ hcond.1 hcond.2
    intro a ha
    have := hlow a ha
    omega
  · symm
    apply List.erase_of_not_mem
    intro hmem
    obtain ⟨b, hb, hbx⟩ := List.getElem_of_mem hmem
    rcases Nat.lt_or_ge b (Search l.length (fun i => decide (l.getD i 0 ≥ x))) with hbr | hbr
    · have := hlow b hbr
      rw [List.getD_eq_getElem l 0 hb] at this
      omega
    · have hlt : Search l.length (fun i => decide (l.getD i 0 ≥ x)) < l.length := by omega
      have h1 := hhigh hlt
      have h2 := getD_mono l hs _ b hbr hb
      rw [List.getD_eq_getElem l 0 hb] at h2
      exact hcond ⟨hlt, by omega⟩

theorem removeVnode_fields (s : String) (h : ConsistentHash T) (i : Nat) :
    (removeVnode s h i).hashFunc = h.hashFunc ∧
    (removeVnode s h i).replicas = h.replicas ∧
    (removeVnode s h i).nodes = h.nodes ∧
    (removeVnode s h i).mu = h.mu ∧
    (removeVnode s h i).ring = GoMap.delete h.ring (h.hashFunc (getVnodeBytes s i)) := by
  unfold removeVnode
  dsimp only
  split_ifs <;> exact ⟨rfl, rfl, rfl, rfl, rfl⟩

theorem removeVnode_circle (s : String) (h : ConsistentHash T) (i : Nat) :
    (removeVnode s h i).circle =
      if Search h.circle.length
            (fun j => decide (h.circle.getD j 0 ≥ h.hashFunc (getVnodeBytes s i))) <
            h.circle.length ∧
          h.circle.getD (Search h.circle.length
            (fun j => decide (h.circle.getD j 0 ≥ h.hashFunc (getVnodeBytes s i)))) 0 =
            h.hashFunc (getVnodeBytes s i) then
        h.circle.take (Search h.circle.length
            (fun j => decide (h.circle.getD j 0 ≥ h.hashFunc (getVnodeBytes s i)))) ++
          h.circle.drop (Search h.circle.length
            (fun j => decide (h.circle.getD j 0 ≥ h.hashFunc (getVnodeBytes s i))) + 1)
      else h.circle := by
  unfold removeVnode
  dsimp only
  split_ifs <;> rfl

theorem removeVnode_sublist (s : String) (h : ConsistentHash T) (i : Nat) :
    List.Sublist (removeVnode s h i).circle h.circle ∧
    ∀ d, d ∈ h.circle → d ≠ h.hashFunc (getVnodeBytes s i) → d ∈ (removeVnode s h i).circle := by
  rw [removeVnode_circle]
  split_ifs with hcond
  · rw [← List.eraseIdx_eq_take_drop_succ]
    refine ⟨List.eraseIdx_sublist _ _, fun d hd hne => ?_⟩
    obtain ⟨b, hb, hbx⟩ := List.getElem_of_mem hd
    rw [List.mem_eraseIdx_iff_getElem]
    refine ⟨b, hb, ?_, hbx⟩
    intro hbe
    subst hbe
    rw [List.getD_eq_getElem _ 0 hb] at hcond
    exact hne (hbx.symm.trans hcond.2)
  · exact ⟨List.Sublist.refl _, fun d hd _ => hd⟩

theorem removeVnode_erase (s : String) (h : ConsistentHash T) (i : Nat)
    (hs : h.circle.Sorted (· ≤ ·)) :
    (removeVnode s h i).circle = h.circle.erase (h.hashFunc (getVnodeBytes s i)) := by
  rw [removeVnode_circle]
  exact search_splice_eq_erase h.circle hs _

theorem foldl_removeVnode (s : String) (l : List Nat) (h : ConsistentHash T) :
    (l.foldl (removeVnode s) h).hashFunc = h.hashFunc ∧
    (l.foldl (removeVnode s) h).replicas = h.replicas ∧
    (l.foldl (removeVnode s) h).nodes = h.nodes ∧
    (l.foldl (removeVnode s) h).mu = h.mu ∧
    List.Sublist (l.foldl (removeVnode s) h).circle h.circle ∧
    (∀ d, d ∈ h.circle → d ∉ l.map (fun i => h.hashFunc (getVnodeBytes s i)) →
      d ∈ (l.foldl (removeVnode s) h).circle) ∧
    (∀ c, GoMap.get? (l.foldl (removeVnode s) h).ring c =
      if c ∈ l.map (fun i => h.hashFunc (getVnodeBytes s i)) then none
      else GoMap.get? h.ring c) ∧
    (h.circle.Sorted (· ≤ ·) → (l.foldl (removeVnode s) h).circle =
      h.circle.diff (l.map (fun i => h.hashFunc (getVnodeBytes s i)))) := by
  induction l generalizing h with
  | nil => simp
  | cons i l ih =>
    obtain ⟨f1, f2, f3, f4, f5⟩ := removeVnode_fields s h i
    obtain ⟨g1, g2⟩ := removeVnode_sublist s h i
    obtain ⟨e1, e2, e3, e4, e5, e6, e7, e8⟩ := ih (removeVnode s h i)
    simp only [List.foldl_cons]
    rw [f1] at e6 e7 e8
    refine ⟨by rw [e1, f1], by rw [e2, f2], by rw [e3, f3], by rw [e4, f4],
      e5.trans g1, ?_, ?_, ?_⟩
    · intro d hd hnot
      simp only [List.map_cons, List.mem_cons, not_or] at hnot
      exact e6 d (g2 d hd hnot.1) hnot.2
    · intro c
      rw [e7 c, f5, GoMap.get?_delete]
      simp only [List.map_cons, List.mem_cons]
      by_cases hc : c ∈ l.map (fun i => h.hashFunc (getVnodeBytes s i))
      · simp [hc]
      · by_cases hi : h.hashFunc (getVnodeBytes s i) = c
        · simp [hi]
        · have hi' : ¬ c = h.hashFunc (getVnodeBytes s i) := fun e => hi e.symm
          simp [hc, hi, hi']
    · intro hs
      have hs' : (removeVnode s h i).circle.Sorted (· ≤ ·) := List.Pairwise.sublist g1 hs
      rw [e8 hs', removeVnode_erase s h i hs, List.map_cons, List.diff_cons]

/-- What `removeNode` does for a member label. -/
theorem removeNode_member (h : ConsistentHash T) (s : String) (hc : contains h s = true) :
    (removeNode h s).hashFunc = h.hashFunc ∧
    (removeNode h s).replicas = h.replicas ∧
    (removeNode h s).mu = h.mu ∧
    (removeNode h s).nodes = GoMap.delete h.nodes s ∧
    List.Sublist (removeNode h s).circle h.circle ∧
    (∀ d, d ∈ h.circle → d ∉ vnodeHashes h.hashFunc s h.replicas →
      d ∈ (removeNode h s).circle) ∧
    (∀ c, GoMap.get? (removeNode h s).ring c =
      if c ∈ vnodeHashes h.hashFunc s h.replicas then none else GoMap.get? h.ring c) ∧
    (h.circle.Sorted (· ≤ ·) → (removeNode h s).circle =
      h.circle.diff (vnodeHashes h.hashFunc s h.replicas)) := by
  obtain ⟨e1, e2, e3, e4, e5, e6, e7, e8⟩ := foldl_removeVnode s (List.range h.replicas) h
  simp only [removeNode, hc, Bool.not_true, Bool.false_eq_true, if_false, vnodeHashes]
  exact ⟨e1, e2, e4, by rw [e3], e5, e6, e7, e8⟩

theorem removeNode_absent (h : ConsistentHash T) (s : String) (hc : contains h s = false) :
    removeNode h s = h := by
  simp [removeNode, hc]

end ConsistentHash
namespace ConsistentHash

variable {T : Type} [Node T]

theorem removeNode_inv (h : ConsistentHash T) (s : String) (hi : Inv h)
    (hs : h.circle.Sorted (· ≤ ·)) :
    Inv (removeNode h s) ∧ (removeNode h s).circle.Sorted (· ≤ ·) := by
  cases hc : contains h s with
  | false => rw [removeNode_absent h s hc]; exact ⟨hi, hs⟩
  | true =>
    obtain ⟨e1, e2, _, e4, e5, e6, e7, _⟩ := removeNode_member h s hc
    refine ⟨⟨by rw [e2]; exact hi.replicas_ge, ?_, ?_, ?_⟩, List.Pairwise.sublist e5 hs⟩
    · intro c n hcn
      rw [e7] at hcn
      by_cases hm : c ∈ vnodeHashes h.hashFunc s h.replicas
      · rw [if_pos hm] at hcn; exact absurd hcn (by simp)
      · rw [if_neg hm] at hcn
        exact e6 c (hi.ring_mem c n hcn) hm
    · intro c n hcn
      rw [e7] at hcn
      by_cases hm : c ∈ vnodeHashes h.hashFunc s h.replicas
      · rw [if_pos hm] at hcn; exact absurd hcn (by simp)
      · rw [if_neg hm] at hcn
        obtain ⟨h1, h2⟩ := hi.ring_label c n hcn
        rw [e1, e2, e4, GoMap.get?_delete]
        have hne : ¬ s = Node.String n := by
          intro e
          rw [← e] at h2
          exact hm h2
        rw [if_neg hne]
        exact ⟨h1, h2⟩
    · intro s' n hsn
      rw [e4, GoMap.get?_delete] at hsn
      by_cases he : s = s'
      · rw [if_pos he] at hsn; exact absurd hsn (by simp)
      · rw [if_neg he] at hsn
        exact hi.nodes_label s' n hsn

theorem foldl_removeNode_inv (l : List String) (h : ConsistentHash T) (hi : Inv h)
    (hs : h.circle.Sorted (· ≤ ·)) :
    Inv (l.foldl removeNode h) ∧ (l.foldl removeNode h).circle.Sorted (· ≤ ·) := by
  induction l generalizing h with
  | nil => exact ⟨hi, hs⟩
  | cons s l ih =>
    obtain ⟨h1, h2⟩ := removeNode_inv h s hi hs
    exact ih (removeNode h s) h1 h2

theorem Remove_eq_RemoveString (nodes : List T) (h : ConsistentHash T) :
    Remove nodes h = RemoveString (nodes.map Node.String) h := by
  simp only [Remove, RemoveString, List.foldl_map]

theorem RemoveString_inv (l : List String) (h : ConsistentHash T) (hi : Inv h)
    (hs : h.circle.Sorted (· ≤ ·)) :
    Inv (RemoveString l h) ∧ (RemoveString l h).circle.Sorted (· ≤ ·) := by
  have hi' : Inv { h with mu := h.mu.Lock } :=
    ⟨hi.replicas_ge, hi.ring_mem, hi.ring_label, hi.nodes_label⟩
  obtain ⟨h1, h2⟩ := foldl_removeNode_inv l { h with mu := h.mu.Lock } hi' hs
  exact ⟨⟨h1.replicas_ge, h1.ring_mem, h1.ring_label, h1.nodes_label⟩, h2⟩

/-- Every reachable state satisfies the invariant and has an ascending circle. -/
theorem Reachable.inv {h : ConsistentHash T} (hr : Reachable h) :
    Inv h ∧ h.circle.Sorted (· ≤ ·) := by
  induction hr with
  | new crc opts => exact ⟨New_inv crc opts, by simp [New]⟩
  | add nodes h _ ih =>
    have := AddReplicas_inv h.replicas nodes h ih.1
    exact ⟨this.1, this.2.1⟩
  | addReplicas r nodes h _ ih =>
    have := AddReplicas_inv r nodes h ih.1
    exact ⟨this.1, this.2.1⟩
  | remove nodes h _ ih =>
    rw [Remove_eq_RemoveString]
    exact RemoveString_inv _ h ih.1 ih.2
  | removeString nodes h _ ih => exact RemoveString_inv _ h ih.1 ih.2

theorem Built.reachable {h : ConsistentHash T} (hb : Built h) : Reachable h := by
  induction hb with
  | new crc opts => exact Reachable.new crc opts
  | add nodes h _ ih => exact Reachable.add nodes h ih
  | addReplicas r nodes h _ ih => exact Reachable.addReplicas r nodes h ih

/-- While nothing is removed, every circle value has its entry in the ring map. -/
theorem Built.owned {h : ConsistentHash T} (hb : Built h) : Owned h := by
  induction hb with
  | new crc opts => intro c hc; simp [New] at hc
  | add nodes h hb ih => exact (AddReplicas_inv h.replicas nodes h hb.reachable.inv.1).2.2 ih
  | addReplicas r nodes h hb ih => exact (AddReplicas_inv r nodes h hb.reachable.inv.1).2.2 ih

end ConsistentHash
namespace ConsistentHash

variable {T : Type} [Node T]

/-! ## Lookup on a ring whose maps agree with the circle -/

theorem GoMap.exists_get?_of_ne_nil {K V : Type} [DecidableEq K] (m : GoMap K V)
    (hm : m ≠ []) : ∃ k v, GoMap.get? m k = some v := by
  cases m with
  | nil => exact absurd rfl hm
  | cons e m => exact ⟨e.1, e.2, by simp [GoMap.get?]⟩

/-- With a non-empty ring map and a non-empty circle, `get` reports found and returns the
entry of a circle value (the zero value if the ring map has none for it). -/
theorem get_found (h : ConsistentHash T) (key : String) (hr : h.ring ≠ [])
    (hc : h.circle ≠ []) :
    ∃ c, c ∈ h.circle ∧ get h key = some ((GoMap.get? h.ring c).getD Node.zero, true) := by
  have hlen : h.circle.length ≠ 0 := fun h0 => hc (List.length_eq_zero.mp h0)
  have hrl : GoMap.len h.ring ≠ 0 := fun h0 => hr (List.length_eq_zero.mp h0)
  have hlt : Search h.circle.length (fun i => decide (h.circle.getD i 0 ≥ h.hashFunc key)) %
      h.circle.length < h.circle.length := Nat.mod_lt _ (Nat.pos_of_ne_zero hlen)
  refine ⟨h.circle.getD (Search h.circle.length
    (fun i => decide (h.circle.getD i 0 ≥ h.hashFunc key)) % h.circle.length) 0, ?_, ?_⟩
  · rw [List.getD_eq_getElem _ 0 hlt]
    exact List.getElem_mem _
  · unfold get
    simp only [hrl, if_false, hlen]

theorem circle_ne_nil_of_ring (h : ConsistentHash T) (hi : Inv h) (hr : h.ring ≠ []) :
    h.circle ≠ [] := by
  obtain ⟨c, n, hcn⟩ := GoMap.exists_get?_of_ne_nil h.ring hr
  exact List.ne_nil_of_mem (hi.ring_mem c n hcn)

theorem get_ring_nil (h : ConsistentHash T) (key : String) (hr : h.ring = []) :
    get h key = some (Node.zero, false) := by
  simp [get, hr, GoMap.len]

/-! ## `AddReplicas` with a single node -/

theorem AddReplicas_single (r : Nat) (node : T) (h : ConsistentHash T)
    (hn : contains h (Node.String node) = false) :
    (AddReplicas r [node] h).hashFunc = h.hashFunc ∧
    (AddReplicas r [node] h).replicas = h.replicas ∧
    (AddReplicas r [node] h).nodes = GoMap.set h.nodes (Node.String node) node ∧
    (AddReplicas r [node] h).circle =
      sortSlice (h.circle ++ vnodeHashes h.hashFunc (Node.String node)
        (if r > h.replicas then h.replicas else r)) ∧
    ∀ c, GoMap.get? (AddReplicas r [node] h).ring c =
      if c ∈ vnodeHashes h.hashFunc (Node.String node)
          (if r > h.replicas then h.replicas else r) then some node
      else GoMap.get? h.ring c := by
  obtain ⟨a1, a2, a3, a4, a5⟩ := AddReplicas_fields r [node] h
  have hn' : contains { h with mu := h.mu.Lock } (Node.String node) = false := hn
  obtain ⟨_, _, _, e4, e5, e6⟩ :=
    addNode_new (if r > h.replicas then h.replicas else r) { h with mu := h.mu.Lock } node hn'
  simp only [List.foldl_cons, List.foldl_nil] at a3 a4 a5
  refine ⟨a1, a2, by rw [a5, e4], by rw [a3, e5], fun c => by rw [a4, e6]⟩

theorem AddReplicas_member (r : Nat) (node : T) (h : ConsistentHash T)
    (hn : contains h (Node.String node) = true) (hs : h.circle.Sorted (· ≤ ·)) :
    (AddReplicas r [node] h).nodes = h.nodes ∧ (AddReplicas r [node] h).ring = h.ring ∧
    (AddReplicas r [node] h).circle = h.circle ∧
    (AddReplicas r [node] h).hashFunc = h.hashFunc := by
  obtain ⟨a1, _, a3, a4, a5⟩ := AddReplicas_fields r [node] h
  have hn' : contains { h with mu := h.mu.Lock } (Node.String node) = true := hn
  have e := addNode_old (if r > h.replicas then h.replicas else r)
    { h with mu := h.mu.Lock } node hn'
  simp only [List.foldl_cons, List.foldl_nil, e] at a3 a4 a5
  exact ⟨a5, a4, by rw [a3]; exact sortSlice_eq _ hs, a1⟩

theorem vnodeHashes_ne_nil (hashFunc : HashFunc) (node : String) (n : Nat) (hn : 0 < n) :
    hashFunc (getVnodeBytes node 0) ∈ vnodeHashes hashFunc node n :=
  (mem_vnodeHashes _ _ _ _).mpr ⟨0, hn, rfl⟩

theorem get_congr (h h' : ConsistentHash T) (key : String) (hc : h.circle = h'.circle)
    (hr : h.ring = h'.ring) (hf : h.hashFunc = h'.hashFunc) : get h key = get h' key := by
  simp only [get, hc, hr, hf]

/-! ## Claims on single members, idempotent adds and non-empty rings -/

/-- C4: on the ring `NewWithNodes([A])`, which is `New` followed by `Add(A)`, whatever the
hash function and the options, `Get(k)` returns `(A, true)` and `GetString(k)` returns
`(A.String(), true)` for every key. -/
theorem NewWithNodes_single (checksumIEEE : String → Nat) (opts : List RingOption) (A : T)
    (key : String) :
    NewWithNodes checksumIEEE [A] opts = Add [A] (New T checksumIEEE opts) ∧
    (Get (NewWithNodes checksumIEEE [A] opts) key).1 = some (A, true) ∧
    (GetString (NewWithNodes checksumIEEE [A] opts) key).1 = some (Node.String A, true) := by
  have hn : contains (New T checksumIEEE opts) (Node.String A) = false := by
    simp [contains, New, GoMap.get?]
  have hrep : 0 < (New T checksumIEEE opts).replicas :=
    lt_of_lt_of_le (by decide) (New_inv (T := T) checksumIEEE opts).replicas_ge
  obtain ⟨e1, e2, _, e4, e5⟩ :=
    AddReplicas_single (New T checksumIEEE opts).replicas A (New T checksumIEEE opts) hn
  simp only [gt_iff_lt, lt_irrefl, if_false] at e4 e5
  have hc0 : (New T checksumIEEE opts).circle = [] := rfl
  have hr0 : (New T checksumIEEE opts).ring = [] := rfl
  rw [hc0, List.nil_append] at e4
  have hmem := vnodeHashes_ne_nil (New T checksumIEEE opts).hashFunc (Node.String A) _ hrep
  have hring : (Add [A] (New T checksumIEEE opts)).ring ≠ [] := by
    apply GoMap.ne_nil_of_get? _ ((New T checksumIEEE opts).hashFunc
      (getVnodeBytes (Node.String A) 0)) A
    show GoMap.get? (AddReplicas _ [A] (New T checksumIEEE opts)).ring _ = some A
    rw [e5, if_pos hmem]
  have hcirc : (Add [A] (New T checksumIEEE opts)).circle ≠ [] := by
    apply List.ne_nil_of_mem (a := (New T checksumIEEE opts).hashFunc
      (getVnodeBytes (Node.String A) 0))
    show _ ∈ (AddReplicas _ [A] (New T checksumIEEE opts)).circle
    rw [e4, mem_sortSlice]
    exact hmem
  obtain ⟨c, hc, hg⟩ := get_found (Add [A] (New T checksumIEEE opts)) key hring hcirc
  have hcm : c ∈ vnodeHashes (New T checksumIEEE opts).hashFunc (Node.String A)
      (New T checksumIEEE opts).replicas := by
    have : c ∈ (AddReplicas (New T checksumIEEE opts).replicas [A]
        (New T checksumIEEE opts)).circle := hc
    rwa [e4, mem_sortSlice] at this
  have hlook : GoMap.get? (Add [A] (New T checksumIEEE opts)).ring c = some A := by
    show GoMap.get? (AddReplicas _ [A] (New T checksumIEEE opts)).ring c = some A
    rw [e5, if_pos hcm]
  rw [hlook] at hg
  have hg' : get (NewWithNodes checksumIEEE [A] opts) key = some (A, true) := hg
  refine ⟨rfl, by rw [Get_fst, hg'], ?_⟩
  rw [GetString_fst, hg']
  simp

/-- C10: in a reachable state, `AddReplicas(r, n)` and `Add(n)` for a node `n` whose label
is already a member leave `nodes`, `ring` and `circle` exactly as they were, hence
`GetNodes()` and every `Get(k)` too. -/
theorem Add_member_noop (h : ConsistentHash T) (hr : Reachable h) (n : T) (r : Nat)
    (hn : contains h (Node.String n) = true) :
    ((AddReplicas r [n] h).nodes = h.nodes ∧ (AddReplicas r [n] h).ring = h.ring ∧
      (AddReplicas r [n] h).circle = h.circle) ∧
    ((Add [n] h).nodes = h.nodes ∧ (Add [n] h).ring = h.ring ∧
      (Add [n] h).circle = h.circle) ∧
    (GetNodes (AddReplicas r [n] h) = GetNodes h ∧ GetNodes (Add [n] h) = GetNodes h) ∧
    (∀ key, (Get (AddReplicas r [n] h) key).1 = (Get h key).1 ∧
      (Get (Add [n] h) key).1 = (Get h key).1) := by
  obtain ⟨a1, a2, a3, a4⟩ := AddReplicas_member r n h hn hr.inv.2
  obtain ⟨b1, b2, b3, b4⟩ := AddReplicas_member h.replicas n h hn hr.inv.2
  refine ⟨⟨a1, a2, a3⟩, ⟨b1, b2, b3⟩, ⟨?_, ?_⟩, fun key => ⟨?_, ?_⟩⟩
  · simp only [GetNodes, a1]
  · simp only [GetNodes, Add, b1]
  · rw [Get_fst, Get_fst]
    exact get_congr _ _ key a3 a2 a4
  · rw [Get_fst, Get_fst]
    exact get_congr _ _ key b3 b2 b4

end ConsistentHash
namespace ConsistentHash

variable {T : Type} [Node T]

theorem Add_member_noop_witness :
    (Reachable smallRing ∧ contains smallRing (Node.String (⟨"A"⟩ : testNode)) = true) ∧
    (∀ key, (Get (AddReplicas 5 [⟨"A"⟩] smallRing) key).1 = (Get smallRing key).1 ∧
      (Get (Add [⟨"A"⟩] smallRing) key).1 = (Get smallRing key).1) :=
  ⟨⟨Reachable.addReplicas _ _ _ (Reachable.new _ _), by decide⟩,
    (Add_member_noop smallRing (Reachable.addReplicas _ _ _ (Reachable.new _ _)) ⟨"A"⟩ 5
      (by decide)).2.2.2⟩

/-- C9 as stated fails: after `New` and `AddReplicas(0, A)` the node `A` is a member,
`GetNodes()` is `[A]`, the ring map is empty and `Get` reports not found. -/
theorem zeroReplicaRing_not_found :
    Reachable zeroReplicaRing ∧ GetNodes zeroReplicaRing = [⟨"A"⟩] ∧
    (Get zeroReplicaRing "key").1 = some (⟨""⟩, false) :=
  ⟨Reachable.addReplicas _ _ _ (Reachable.new _ _), by decide, by decide⟩

theorem addNode_populated (r : Nat) (hr : 0 < r) (h : ConsistentHash T) (node : T)
    (hp : h.nodes ≠ [] → h.ring ≠ []) :
    (addNode r h node).nodes ≠ [] → (addNode r h node).ring ≠ [] := by
  cases hn : contains h (Node.String node) with
  | true => rw [addNode_old r h node hn]; exact hp
  | false =>
    obtain ⟨_, _, _, _, _, e6⟩ := addNode_new r h node hn
    intro _
    apply GoMap.ne_nil_of_get? _ (h.hashFunc (getVnodeBytes (Node.String node) 0)) node
    rw [e6, if_pos (vnodeHashes_ne_nil _ _ _ hr)]

theorem foldl_addNode_populated (r : Nat) (hr : 0 < r) (nodes : List T) (h : ConsistentHash T)
    (hp : h.nodes ≠ [] → h.ring ≠ []) :
    (nodes.foldl (addNode r) h).nodes ≠ [] → (nodes.foldl (addNode r) h).ring ≠ [] := by
  induction nodes generalizing h with
  | nil => exact hp
  | cons n ns ih => exact ih (addNode r h n) (addNode_populated r hr h n hp)

theorem AddReplicas_populated (r : Nat) (hr : 0 < r) (nodes : List T) (h : ConsistentHash T)
    (hrep : 0 < h.replicas) (hp : h.nodes ≠ [] → h.ring ≠ []) :
    (AddReplicas r nodes h).nodes ≠ [] → (AddReplicas r nodes h).ring ≠ [] := by
  obtain ⟨_, _, _, a4, a5⟩ := AddReplicas_fields r nodes h
  rw [a4, a5]
  have hpos : 0 < (if r > h.replicas then h.replicas else r) := by
    split_ifs
    · exact hrep
    · exact hr
  exact foldl_addNode_populated _ hpos nodes { h with mu := h.mu.Lock } hp

theorem BuiltNonzero.toReachable {h : ConsistentHash T} (hb : BuiltNonzero h) : Reachable h := by
  induction hb with
  | new crc opts => exact Reachable.new crc opts
  | add nodes h _ ih => exact Reachable.add nodes h ih
  | addReplicas r nodes h _ _ ih => exact Reachable.addReplicas r nodes h ih

theorem BuiltNonzero.populated {h : ConsistentHash T} (hb : BuiltNonzero h) :
    h.nodes ≠ [] → h.ring ≠ [] := by
  induction hb with
  | new crc opts => intro hn; exact absurd rfl hn
  | add nodes h hb ih =>
    have hrep : 0 < h.replicas := lt_of_lt_of_le (by decide) hb.toReachable.inv.1.replicas_ge
    exact AddReplicas_populated h.replicas hrep nodes h hrep ih
  | addReplicas r nodes h hr hb ih =>
    have hrep : 0 < h.replicas := lt_of_lt_of_le (by decide) hb.toReachable.inv.1.replicas_ge
    exact AddReplicas_populated r hr nodes h hrep ih

/-- C9, amended: in every reachable state whose ring map is non-empty, `Get(k)` reports
found for every key; a non-empty `GetNodes()` is enough for that in the states built from
`New` by `Add` calls and by `AddReplicas` calls with a replica count of at least 1. -/
theorem Get_found_of_ring (h : ConsistentHash T) (key : String) :
    (Reachable h → GoMap.len h.ring ≠ 0 → ∃ n, (Get h key).1 = some (n, true)) ∧
    (BuiltNonzero h → GetNodes h ≠ [] → ∃ n, (Get h key).1 = some (n, true)) := by
  have main : Reachable h → h.ring ≠ [] → ∃ n, (Get h key).1 = some (n, true) := by
    intro hr hring
    obtain ⟨c, _, hg⟩ := get_found h key hring (circle_ne_nil_of_ring h hr.inv.1 hring)
    exact ⟨_, by rw [Get_fst, hg]⟩
  refine ⟨fun hr hne => main hr ?_, fun hb hn => main hb.toReachable (hb.populated ?_)⟩
  · intro h0
    rw [h0] at hne
    exact hne rfl
  · intro h0
    apply hn
    simp [GetNodes, mapValues, h0]

theorem Get_found_of_ring_witness :
    (Reachable smallRing ∧ GoMap.len smallRing.ring ≠ 0 ∧ BuiltNonzero smallRing ∧
      GetNodes smallRing ≠ []) ∧
    (∃ n, (Get smallRing "key").1 = some (n, true)) ∧
    (∃ n, (Get smallRing "another key").1 = some (n, true)) :=
  ⟨⟨Reachable.addReplicas _ _ _ (Reachable.new _ _), by decide,
      BuiltNonzero.addReplicas _ _ _ (by decide) (BuiltNonzero.new _ _), by decide⟩,
    (Get_found_of_ring smallRing "key").1 (Reachable.addReplicas _ _ _ (Reachable.new _ _))
      (by decide),
    (Get_found_of_ring smallRing "another key").2
      (BuiltNonzero.addReplicas _ _ _ (by decide) (BuiltNonzero.new _ _)) (by decide)⟩

end ConsistentHash
namespace ConsistentHash

variable {T : Type} [Node T]

/-! ## Membership changes and the owner of a key -/

theorem get_true_ring_ne_nil (h : ConsistentHash T) (key : String) (n : T)
    (hg : get h key = some (n, true)) : h.ring ≠ [] := by
  intro h0
  rw [get_ring_nil h key h0] at hg
  simp at hg

/-- Adding one node that is not a member: every key is found afterwards, at the new node
or at the node it had before. -/
theorem get_AddReplicas_new (h : ConsistentHash T) (hi : Inv h) (hs : h.circle.Sorted (· ≤ ·))
    (Z : T) (hZ : contains h (Node.String Z) = false) (key : String) :
    ∃ n, get (AddReplicas h.replicas [Z] h) key = some (n, true) ∧
      (n = Z ∨ ∃ b, get h key = some (n, b)) := by
  obtain ⟨e1, _, _, e4, e5⟩ := AddReplicas_single h.replicas Z h hZ
  simp only [gt_iff_lt, lt_irrefl, if_false] at e4 e5
  have hrep : 0 < h.replicas := lt_of_lt_of_le (by decide) hi.replicas_ge
  have hmem := vnodeHashes_ne_nil h.hashFunc (Node.String Z) _ hrep
  have hs' : (AddReplicas h.replicas [Z] h).circle.Sorted (· ≤ ·) := by
    rw [e4]; exact sortSlice_sorted _
  have hring : (AddReplicas h.replicas [Z] h).ring ≠ [] := by
    apply GoMap.ne_nil_of_get? _ (h.hashFunc (getVnodeBytes (Node.String Z) 0)) Z
    rw [e5, if_pos hmem]
  have hcirc : (AddReplicas h.replicas [Z] h).circle ≠ [] := by
    apply List.ne_nil_of_mem (a := h.hashFunc (getVnodeBytes (Node.String Z) 0))
    rw [e4, mem_sortSlice]
    exact List.mem_append_right _ hmem
  have hsucc := isSuccessor_search _ hs' hcirc ((AddReplicas h.replicas [Z] h).hashFunc key)
  have hg := get_eq_of_isSuccessor _ key _ hs' hring hsucc
  refine ⟨_, hg, ?_⟩
  generalize hc' : (AddReplicas h.replicas [Z] h).circle.getD
    (Search (AddReplicas h.replicas [Z] h).circle.length
      (fun i => decide ((AddReplicas h.replicas [Z] h).circle.getD i 0 ≥
        (AddReplicas h.replicas [Z] h).hashFunc key)) %
      (AddReplicas h.replicas [Z] h).circle.length) 0 = c at hsucc
  rw [e5]
  by_cases hm : c ∈ vnodeHashes h.hashFunc (Node.String Z) h.replicas
  · left
    rw [if_pos hm]
    rfl
  · right
    rw [if_neg hm]
    have hcm : c ∈ h.circle := by
      have := isSuccessor_mem _ _ _ hsucc
      rw [e4, mem_sortSlice, List.mem_append] at this
      exact this.resolve_right hm
    have hsub : ∀ d ∈ h.circle, d ∈ (AddReplicas h.replicas [Z] h).circle := by
      intro d hd
      rw [e4, mem_sortSlice]
      exact List.mem_append_left _ hd
    have hsucc' : IsSuccessor h.circle (h.hashFunc key) c := by
      have := isSuccessor_of_subset _ h.circle hs' hs hsub _ c hcm hsucc
      rwa [e1] at this
    by_cases hr : h.ring = []
    · refine ⟨false, ?_⟩
      rw [get_ring_nil h key hr, hr]
      rfl
    · exact ⟨true, get_eq_of_isSuccessor h key c hs hr hsucc'⟩

/-- Removing a member label: a key that was found at a node with another label, on a
ring whose circle values all have ring entries and whose virtual-node hashes are
distinct, is found at the same node afterwards. -/
theorem get_removeNode_other (h : ConsistentHash T) (hi : Inv h) (hs : h.circle.Sorted (· ≤ ·))
    (ho : Owned h) (hd : VnodesDistinct h) (s : String) (Y : T) (key : String)
    (hg : get h key = some (Y, true)) (hne : Node.String Y ≠ s) :
    get (removeNode h s) key = some (Y, true) := by
  cases hc : contains h s with
  | false => rw [removeNode_absent h s hc]; exact hg
  | true =>
    obtain ⟨e1, _, _, _, e5, e6, e7, _⟩ := removeNode_member h s hc
    have hring := get_true_ring_ne_nil h key Y hg
    have hcirc := circle_ne_nil_of_ring h hi hring
    have hsucc := isSuccessor_search _ hs hcirc (h.hashFunc key)
    have hg' := get_eq_of_isSuccessor h key _ hs hring hsucc
    generalize hc' : h.circle.getD (Search h.circle.length
      (fun i => decide (h.circle.getD i 0 ≥ h.hashFunc key)) % h.circle.length) 0 = c
      at hsucc hg'
    obtain ⟨n, hn⟩ := ho c (isSuccessor_mem _ _ _ hsucc)
    rw [hg, hn] at hg'
    have hYn : Y = n := by simpa using hg'
    subst hYn
    obtain ⟨hmemb, hvn⟩ := hi.ring_label c Y hn
    have hnot : c ∉ vnodeHashes h.hashFunc s h.replicas := by
      intro hx
      rw [mem_vnodeHashes] at hx hvn
      obtain ⟨i, hi', hci⟩ := hx
      obtain ⟨j, hj, hcj⟩ := hvn
      have hcY : contains h (Node.String Y) = true := (contains_iff h _).mpr ⟨Y, hmemb⟩
      exact hne (hd (Node.String Y) s j i hcY hc hj hi' (hcj.symm.trans hci)).1
    have hcm : c ∈ (removeNode h s).circle := e6 c (isSuccessor_mem _ _ _ hsucc) hnot
    have hlook : GoMap.get? (removeNode h s).ring c = some Y := by
      rw [e7, if_neg hnot, hn]
    have hs' : (removeNode h s).circle.Sorted (· ≤ ·) := List.Pairwise.sublist e5 hs
    have hsucc' : IsSuccessor (removeNode h s).circle ((removeNode h s).hashFunc key) c := by
      rw [e1]
      exact isSuccessor_of_subset h.circle _ hs hs' (fun d hd => e5.subset hd) _ c hcm hsucc
    have := get_eq_of_isSuccessor _ key c hs' (GoMap.ne_nil_of_get? _ c Y hlook) hsucc'
    rw [this, hlook]
    rfl

theorem mem_mapKeys_of_get? {K V : Type} [DecidableEq K] (m : GoMap K V) (k : K) (v : V)
    (h : GoMap.get? m k = some v) : k ∈ mapKeys m := by
  induction m with
  | nil => simp [GoMap.get?] at h
  | cons e m ih =>
    obtain ⟨a, b⟩ := e
    simp only [GoMap.get?] at h
    by_cases hak : a = k
    · subst hak; simp [mapKeys]
    · rw [if_neg hak] at h
      have := ih h
      simp only [mapKeys, List.map_cons, List.mem_cons] at this ⊢
      exact Or.inr this

/-- The virtual-node hashes are distinct when the list of all of them has no duplicate. -/
theorem vnodesDistinct_of_nodup (h : ConsistentHash T)
    (hnd : ((mapKeys h.nodes).flatMap fun l => vnodeHashes h.hashFunc l h.replicas).Nodup) :
    VnodesDistinct h := by
  rw [List.nodup_flatMap] at hnd
  obtain ⟨hin, hpw⟩ := hnd
  intro l₁ l₂ i₁ i₂ h1 h2 hi1 hi2 heq
  obtain ⟨n1, hn1⟩ := (contains_iff h l₁).mp h1
  obtain ⟨n2, hn2⟩ := (contains_iff h l₂).mp h2
  have hm1 := mem_mapKeys_of_get? _ _ _ hn1
  have hm2 := mem_mapKeys_of_get? _ _ _ hn2
  have hl : l₁ = l₂ := by
    by_contra hne
    have hsym : Symmetric (fun a b : String =>
        List.Disjoint (vnodeHashes h.hashFunc a h.replicas)
          (vnodeHashes h.hashFunc b h.replicas)) := fun a b hab => hab.symm
    have hdis := List.Pairwise.forall hsym hpw hm1 hm2 hne
    exact hdis ((mem_vnodeHashes _ _ _ _).mpr ⟨i₁, hi1, rfl⟩)
      ((mem_vnodeHashes _ _ _ _).mpr ⟨i₂, hi2, heq⟩)
  subst hl
  refine ⟨rfl, ?_⟩
  have hnd1 := hin l₁ hm1
  unfold vnodeHashes at hnd1
  exact List.inj_on_of_nodup_map hnd1 (List.mem_range.mpr hi1) (List.mem_range.mpr hi2) heq

/-! ## Claims on membership changes -/

/-- C2: on a ring built from `New` by `Add` and `AddReplicas` calls whose virtual-node
hashes are pairwise distinct, a key that `Get` found at a node `Y` whose label differs
from the label of `X` is found at the same node `Y` after `Remove(X)`. -/
theorem Remove_keeps_other_owners (h : ConsistentHash T) (hb : Built h)
    (hd : VnodesDistinct h) (X Y : T) (key : String)
    (hg : (Get h key).1 = some (Y, true)) (hne : Node.String Y ≠ Node.String X) :
    (Get (Remove [X] h) key).1 = some (Y, true) := by
  obtain ⟨hi, hs⟩ := hb.reachable.inv
  have hi' : Inv { h with mu := h.mu.Lock } :=
    ⟨hi.replicas_ge, hi.ring_mem, hi.ring_label, hi.nodes_label⟩
  exact get_removeNode_other { h with mu := h.mu.Lock } hi' hs hb.owned hd
    (Node.String X) Y key hg hne

/-- C3: on a ring built from `New` by `Add` and `AddReplicas` calls, after `Add(Z)` for a
node `Z` whose label is not a member every key is found, at `Z` or at the node that
`Get` returned for it before; no assumption on the hash function is needed. -/
theorem Add_moves_keys_to_new_only (h : ConsistentHash T) (hb : Built h) (Z : T)
    (hZ : contains h (Node.String Z) = false) (key : String) :
    ∃ n, (Get (Add [Z] h) key).1 = some (n, true) ∧
      (n = Z ∨ ∃ b, (Get h key).1 = some (n, b)) := by
  obtain ⟨hi, hs⟩ := hb.reachable.inv
  exact get_AddReplicas_new h hi hs Z hZ key

theorem Add_moves_keys_to_new_only_witness :
    (Built smallRing ∧ contains smallRing (Node.String (⟨"B"⟩ : testNode)) = false) ∧
    ∃ n, (Get (Add [⟨"B"⟩] smallRing) "key").1 = some (n, true) ∧
      (n = ⟨"B"⟩ ∨ ∃ b, (Get smallRing "key").1 = some (n, b)) :=
  ⟨⟨Built.addReplicas _ _ _ (Built.new _ _), by decide⟩,
    Add_moves_keys_to_new_only smallRing (Built.addReplicas _ _ _ (Built.new _ _)) ⟨"B"⟩
      (by decide) "key"⟩

set_option maxRecDepth 100000 in
theorem Remove_keeps_other_owners_witness :
    (Built twoRing ∧ VnodesDistinct twoRing ∧
      (Get twoRing "16777619Y0").1 = some (⟨"Y"⟩, true) ∧
      Node.String (⟨"Y"⟩ : testNode) ≠ Node.String (⟨"X"⟩ : testNode)) ∧
    (Get (Remove [⟨"X"⟩] twoRing) "16777619Y0").1 = some (⟨"Y"⟩, true) :=
  have hb : Built twoRing := Built.addReplicas _ _ _ (Built.addReplicas _ _ _ (Built.new _ _))
  have hd : VnodesDistinct twoRing := vnodesDistinct_of_nodup twoRing (by decide!)
  have hg : (Get twoRing "16777619Y0").1 = some (⟨"Y"⟩, true) := by decide!
  have hne : Node.String (⟨"Y"⟩ : testNode) ≠ Node.String (⟨"X"⟩ : testNode) := by decide
  ⟨⟨hb, hd, hg, hne⟩, Remove_keeps_other_owners twoRing hb hd ⟨"X"⟩ ⟨"Y"⟩ "16777619Y0" hg hne⟩

end ConsistentHash
namespace ConsistentHash

variable {T : Type} [Node T]

/-! ## Two labels that share a virtual-node name -/

theorem count_sortSlice (l : List Nat) (x : Nat) : (sortSlice l).count x = l.count x :=
  List.Perm.count_eq (List.perm_insertionSort (· ≤ ·) l) x

theorem count_diff (l m : List Nat) (x : Nat) :
    (l.diff m).count x = l.count x - m.count x := by
  induction m generalizing l with
  | nil => simp
  | cons b m ih =>
    rw [List.diff_cons, ih, List.count_erase, List.count_cons]
    by_cases hb : b = x
    · subst hb
      simp only [beq_self_eq_true, if_true]
      omega
    · have : (b == x) = false := by simpa using hb
      simp only [this, Bool.false_eq_true, if_false]
      omega

/-- On a fresh ring, add `a`, add `b`, remove `a`.  If the virtual node `i` of `a` and
the virtual node `j` of `b` have the same name `key`, and some virtual node `m` of `b`
has a hash that no virtual node of `a` has, then the lookup of `key` finds the zero
value: the circle still holds the hash of `key`, and the ring map has lost its entry. -/
theorem get_stale (checksumIEEE : String → Nat) (opts : List RingOption) (a b : T)
    (i j m : Nat) (key : String) (hab : Node.String a ≠ Node.String b)
    (hi : i < (New T checksumIEEE opts).replicas) (hj : j < (New T checksumIEEE opts).replicas)
    (hm : m < (New T checksumIEEE opts).replicas)
    (hka : getVnodeBytes (Node.String a) i = key) (hkb : getVnodeBytes (Node.String b) j = key)
    (hsep : (New T checksumIEEE opts).hashFunc (getVnodeBytes (Node.String b) m) ∉
      vnodeHashes (New T checksumIEEE opts).hashFunc (Node.String a)
        (New T checksumIEEE opts).replicas) :
    get (removeNode
      { Add [b] (Add [a] (New T checksumIEEE opts)) with
        mu := (Add [b] (Add [a] (New T checksumIEEE opts))).mu.Lock }
      (Node.String a)) key = some (Node.zero, true) := by
  generalize hh0 : New T checksumIEEE opts = h0 at *
  have hc0 : h0.circle = [] := by rw [← hh0]; rfl
  have hr0 : h0.ring = [] := by rw [← hh0]; rfl
  have hn0 : h0.nodes = [] := by rw [← hh0]; rfl
  -- the first add
  have hna : contains h0 (Node.String a) = false := by simp [contains, hn0, GoMap.get?]
  obtain ⟨a1, a2, a3, a4, a5⟩ := AddReplicas_single h0.replicas a h0 hna
  simp only [gt_iff_lt, lt_irrefl, if_false] at a4 a5
  rw [hc0, List.nil_append] at a4
  have hh1 : AddReplicas h0.replicas [a] h0 = Add [a] h0 := rfl
  rw [hh1] at a1 a2 a3 a4 a5
  generalize Add [a] h0 = h1 at *
  -- the second add
  have hnb : contains h1 (Node.String b) = false := by
    rw [contains_false_iff, a3, GoMap.get?_set, if_neg hab, hn0]
    rfl
  obtain ⟨b1, b2, b3, b4, b5⟩ := AddReplicas_single h1.replicas b h1 hnb
  simp only [gt_iff_lt, lt_irrefl, if_false] at b4 b5
  have hh2 : AddReplicas h1.replicas [b] h1 = Add [b] h1 := rfl
  rw [hh2] at b1 b2 b3 b4 b5
  generalize Add [b] h1 = h2 at *
  rw [a1, a2] at b4 b5
  rw [a1] at b1
  rw [a2] at b2
  have hs2 : h2.circle.Sorted (· ≤ ·) := by rw [b4]; exact sortSlice_sorted _
  have hca : contains { h2 with mu := h2.mu.Lock } (Node.String a) = true := by
    rw [contains_iff]
    refine ⟨a, ?_⟩
    show GoMap.get? h2.nodes (Node.String a) = some a
    rw [b3, GoMap.get?_set, if_neg (fun e => hab e.symm), a3, GoMap.get?_set, if_pos rfl]
  -- the removal
  obtain ⟨e1, _, _, _, e5, _, e7, e8⟩ :=
    removeNode_member { h2 with mu := h2.mu.Lock } (Node.String a) hca
  have e8' := e8 hs2
  have hf3 : (removeNode { h2 with mu := h2.mu.Lock } (Node.String a)).hashFunc = h0.hashFunc :=
    e1.trans b1
  have hv : vnodeHashes ({ h2 with mu := h2.mu.Lock } : ConsistentHash T).hashFunc
      (Node.String a) ({ h2 with mu := h2.mu.Lock } : ConsistentHash T).replicas =
      vnodeHashes h0.hashFunc (Node.String a) h0.replicas := by
    show vnodeHashes h2.hashFunc (Node.String a) h2.replicas = _
    rw [b1, b2]
  rw [hv] at e7 e8'
  have hc3 : (removeNode { h2 with mu := h2.mu.Lock } (Node.String a)).circle =
      (sortSlice (sortSlice (vnodeHashes h0.hashFunc (Node.String a) h0.replicas) ++
        vnodeHashes h0.hashFunc (Node.String b) h0.replicas)).diff
        (vnodeHashes h0.hashFunc (Node.String a) h0.replicas) := by
    rw [e8']
    show h2.circle.diff _ = _
    rw [b4, a4]
  have hxa : h0.hashFunc key ∈ vnodeHashes h0.hashFunc (Node.String a) h0.replicas :=
    (mem_vnodeHashes _ _ _ _).mpr ⟨i, hi, by rw [hka]⟩
  have hxb : h0.hashFunc key ∈ vnodeHashes h0.hashFunc (Node.String b) h0.replicas :=
    (mem_vnodeHashes _ _ _ _).mpr ⟨j, hj, by rw [hkb]⟩
  have hmem : h0.hashFunc key ∈
      (removeNode { h2 with mu := h2.mu.Lock } (Node.String a)).circle := by
    rw [hc3, ← List.count_pos_iff, count_diff, count_sortSlice, List.count_append,
      count_sortSlice]
    have := List.count_pos_iff.mpr hxb
    omega
  have hs3 : (removeNode { h2 with mu := h2.mu.Lock } (Node.String a)).circle.Sorted (· ≤ ·) :=
    List.Pairwise.sublist e5 hs2
  have hlook : GoMap.get? (removeNode { h2 with mu := h2.mu.Lock } (Node.String a)).ring
      (h0.hashFunc key) = none := by
    rw [e7, if_pos hxa]
  have hkeep : GoMap.get? (removeNode { h2 with mu := h2.mu.Lock } (Node.String a)).ring
      (h0.hashFunc (getVnodeBytes (Node.String b) m)) = some b := by
    rw [e7, if_neg hsep]
    show GoMap.get? h2.ring _ = some b
    rw [b5, if_pos ((mem_vnodeHashes _ _ _ _).mpr ⟨m, hm, rfl⟩)]
  have hsucc : IsSuccessor (removeNode { h2 with mu := h2.mu.Lock } (Node.String a)).circle
      ((removeNode { h2 with mu := h2.mu.Lock } (Node.String a)).hashFunc key)
      (h0.hashFunc key) := by
    rw [hf3]
    exact Or.inl ⟨hmem, le_refl _, fun d _ hd => hd⟩
  rw [get_eq_of_isSuccessor _ key _ hs3 (GoMap.ne_nil_of_get? _ _ b hkeep) hsucc, hlook]
  rfl

end ConsistentHash
namespace ConsistentHash

variable {T : Type} [Node T]

theorem get_Remove_single (X : T) (h : ConsistentHash T) (key : String) :
    get (Remove [X] h) key =
      get (removeNode { h with mu := h.mu.Lock } (Node.String X)) key := rfl

theorem get_RemoveString_single (s : String) (h : ConsistentHash T) (key : String) :
    get (RemoveString [s] h) key = get (removeNode { h with mu := h.mu.Lock } s) key := rfl

theorem New_WithHashFunc (checksumIEEE : String → Nat) (hf : HashFunc) :
    (New T checksumIEEE [WithHashFunc (some hf)]).replicas = minReplicas ∧
    (New T checksumIEEE [WithHashFunc (some hf)]).hashFunc = hf := ⟨rfl, rfl⟩

/-- A hash function without collisions keeps the hash of `16777619A110`, the virtual
node 10 of the label `A1`, apart from the hashes of the virtual nodes of the label `A`. -/
theorem vnode_sep_of_injective (hf : HashFunc) (hinj : Function.Injective hf) :
    hf (getVnodeBytes "A1" 10) ∉ vnodeHashes hf "A" minReplicas := by
  intro hmem
  obtain ⟨i, hi, he⟩ := (mem_vnodeHashes _ _ _ _).mp hmem
  have hall : ∀ i, i < minReplicas → getVnodeBytes "A1" 10 ≠ getVnodeBytes "A" i := by decide!
  exact hall i hi (hinj he)

/-- C5 fails on the code: on a fresh ring, after `Add(A)`, `Add(A1)` and `Remove(A)` for the
nodes labelled `A` and `A1`, the key `16777619A10` (the name of virtual node 10 of `A` and
of virtual node 0 of `A1`) is found at the zero value, not at `A1`: `Get` returns
`("", true)` and so does `GetString`.  The hash function is any one that gives virtual
node 10 of `A1` a hash that no virtual node of `A` has, as every hash function without
collisions does. -/
theorem Remove_leaves_stale_entry (checksumIEEE : String → Nat) (hf : HashFunc)
    (hsep : hf (getVnodeBytes "A1" 10) ∉ vnodeHashes hf "A" minReplicas) :
    (Get (Remove [⟨"A"⟩] (Add [⟨"A1"⟩] (Add [⟨"A"⟩]
      (New testNode checksumIEEE [WithHashFunc (some hf)])))) "16777619A10").1 =
      some (⟨""⟩, true) ∧
    (GetString (Remove [⟨"A"⟩] (Add [⟨"A1"⟩] (Add [⟨"A"⟩]
      (New testNode checksumIEEE [WithHashFunc (some hf)])))) "16777619A10").1 =
      some ("", true) := by
  obtain ⟨hrep, hhf⟩ := New_WithHashFunc (T := testNode) checksumIEEE hf
  have hlt : 10 < (New testNode checksumIEEE [WithHashFunc (some hf)]).replicas := by
    rw [hrep]; decide
  have hsep' : (New testNode checksumIEEE [WithHashFunc (some hf)]).hashFunc
      (getVnodeBytes (Node.String (⟨"A1"⟩ : testNode)) 10) ∉
      vnodeHashes (New testNode checksumIEEE [WithHashFunc (some hf)]).hashFunc
        (Node.String (⟨"A"⟩ : testNode))
        (New testNode checksumIEEE [WithHashFunc (some hf)]).replicas := by
    rw [hrep, hhf]; exact hsep
  have hg := get_stale checksumIEEE [WithHashFunc (some hf)] (⟨"A"⟩ : testNode) ⟨"A1"⟩ 10 0 10
    "16777619A10" (by decide) hlt (lt_trans (by decide) hlt) hlt (by decide) (by decide) hsep'
  have hg' : get (Remove [⟨"A"⟩] (Add [⟨"A1"⟩] (Add [⟨"A"⟩]
      (New testNode checksumIEEE [WithHashFunc (some hf)])))) "16777619A10" =
      some (⟨""⟩, true) := by
    rw [get_Remove_single]
    exact hg
  refine ⟨by rw [Get_fst, hg'], ?_⟩
  rw [GetString_fst, hg']
  rfl

set_option maxRecDepth 100000 in
theorem Remove_leaves_stale_entry_witness :
    tailHash (getVnodeBytes "A1" 10) ∉ vnodeHashes tailHash "A" minReplicas ∧
    (Get (Remove [⟨"A"⟩] (Add [⟨"A1"⟩] (Add [⟨"A"⟩]
      (New testNode lengthHash [WithHashFunc (some tailHash)])))) "16777619A10").1 =
      some (⟨""⟩, true) ∧
    (GetString (Remove [⟨"A"⟩] (Add [⟨"A1"⟩] (Add [⟨"A"⟩]
      (New testNode lengthHash [WithHashFunc (some tailHash)])))) "16777619A10").1 =
      some ("", true) :=
  ⟨by decide!, Remove_leaves_stale_entry lengthHash tailHash (by decide!)⟩

/-- C6 fails on the code: on a fresh ring, after `Add` of the nodes labelled `""` and `1`
and `RemoveString("")`, the key `1677761910` (the name of virtual node 10 of `""` and of
virtual node 0 of `1`) is found, at the zero value, whose label is the removed label `""`.
The hash function is any one that gives virtual node 10 of `1` a hash that no virtual
node of `""` has. -/
theorem RemoveString_returns_removed_label (checksumIEEE : String → Nat) (hf : HashFunc)
    (hsep : hf (getVnodeBytes "1" 10) ∉ vnodeHashes hf "" minReplicas) :
    (Get (RemoveString [""] (Add [⟨"1"⟩] (Add [⟨""⟩]
      (New testNode checksumIEEE [WithHashFunc (some hf)])))) "1677761910").1 =
      some (⟨""⟩, true) ∧
    Node.String (⟨""⟩ : testNode) = "" := by
  obtain ⟨hrep, hhf⟩ := New_WithHashFunc (T := testNode) checksumIEEE hf
  have hlt : 10 < (New testNode checksumIEEE [WithHashFunc (some hf)]).replicas := by
    rw [hrep]; decide
  have hsep' : (New testNode checksumIEEE [WithHashFunc (some hf)]).hashFunc
      (getVnodeBytes (Node.String (⟨"1"⟩ : testNode)) 10) ∉
      vnodeHashes (New testNode checksumIEEE [WithHashFunc (some hf)]).hashFunc
        (Node.String (⟨""⟩ : testNode))
        (New testNode checksumIEEE [WithHashFunc (some hf)]).replicas := by
    rw [hrep, hhf]; exact hsep
  have hg := get_stale checksumIEEE [WithHashFunc (some hf)] (⟨""⟩ : testNode) ⟨"1"⟩ 10 0 10
    "1677761910" (by decide) hlt (lt_trans (by decide) hlt) hlt (by decide) (by decide) hsep'
  have hg' : get (RemoveString [""] (Add [⟨"1"⟩] (Add [⟨""⟩]
      (New testNode checksumIEEE [WithHashFunc (some hf)])))) "1677761910" =
      some (⟨""⟩, true) := by
    rw [get_RemoveString_single]
    exact hg
  exact ⟨by rw [Get_fst, hg'], rfl⟩

set_option maxRecDepth 100000 in
theorem RemoveString_returns_removed_label_witness :
    tailHash (getVnodeBytes "1" 10) ∉ vnodeHashes tailHash "" minReplicas ∧
    (Get (RemoveString [""] (Add [⟨"1"⟩] (Add [⟨""⟩]
      (New testNode lengthHash [WithHashFunc (some tailHash)])))) "1677761910").1 =
      some (⟨""⟩, true) ∧
    Node.String (⟨""⟩ : testNode) = "" :=
  ⟨by decide!, RemoveString_returns_removed_label lengthHash tailHash (by decide!)⟩

end ConsistentHash
namespace ConsistentHash

variable {T : Type} [Node T]

/-! ## Keys of a Go map -/

theorem exists_get?_of_mem_mapKeys {K V : Type} [DecidableEq K] (m : GoMap K V) (k : K)
    (h : k ∈ mapKeys m) : ∃ v, GoMap.get? m k = some v := by
  induction m with
  | nil => simp [mapKeys] at h
  | cons e m ih =>
    obtain ⟨a, b⟩ := e
    simp only [GoMap.get?]
    by_cases hak : a = k
    · exact ⟨b, by rw [if_pos hak]⟩
    · rw [if_neg hak]
      simp only [mapKeys, List.map_cons, List.mem_cons] at h
      rcases h with h | h
      · exact absurd h.symm hak
      · exact ih h

theorem contains_false_of_not_mem (h : ConsistentHash T) (l : String)
    (hl : l ∉ mapKeys h.nodes) : contains h l = false := by
  rw [contains_false_iff]
  cases hg : GoMap.get? h.nodes l with
  | none => rfl
  | some v => exact absurd (mem_mapKeys_of_get? _ _ _ hg) hl

/-! ## Claims on no-op removal, totality and the sorted circle -/

/-- C11: for every ring state and every label `l` that is not a key of `nodes`,
`RemoveString(l)` and `Remove` of a node labelled `l` leave `circle`, `ring` and `nodes`
exactly as they were. -/
theorem Remove_unknown_noop (h : ConsistentHash T) (l : String) (hl : l ∉ mapKeys h.nodes) :
    ((RemoveString [l] h).circle = h.circle ∧ (RemoveString [l] h).ring = h.ring ∧
      (RemoveString [l] h).nodes = h.nodes) ∧
    ∀ n : T, Node.String n = l →
      (Remove [n] h).circle = h.circle ∧ (Remove [n] h).ring = h.ring ∧
      (Remove [n] h).nodes = h.nodes := by
  have hc : contains { h with mu := h.mu.Lock } l = false := contains_false_of_not_mem h l hl
  have hrs : RemoveString [l] h =
      { removeNode { h with mu := h.mu.Lock } l with
        mu := (removeNode { h with mu := h.mu.Lock } l).mu.Unlock } := rfl
  refine ⟨?_, fun n hn => ?_⟩
  · rw [hrs, removeNode_absent _ _ hc]
    exact ⟨rfl, rfl, rfl⟩
  · rw [Remove_eq_RemoveString]
    simp only [List.map_cons, List.map_nil, hn]
    rw [hrs, removeNode_absent _ _ hc]
    exact ⟨rfl, rfl, rfl⟩

theorem Remove_unknown_noop_witness :
    "B" ∉ mapKeys smallRing.nodes ∧
    ((RemoveString ["B"] smallRing).circle = smallRing.circle ∧
      (RemoveString ["B"] smallRing).ring = smallRing.ring ∧
      (RemoveString ["B"] smallRing).nodes = smallRing.nodes) ∧
    ((Remove [(⟨"B"⟩ : testNode)] smallRing).circle = smallRing.circle ∧
      (Remove [(⟨"B"⟩ : testNode)] smallRing).ring = smallRing.ring ∧
      (Remove [(⟨"B"⟩ : testNode)] smallRing).nodes = smallRing.nodes) :=
  ⟨by decide, (Remove_unknown_noop smallRing "B" (by decide)).1,
    (Remove_unknown_noop smallRing "B" (by decide)).2 ⟨"B"⟩ rfl⟩

/-- C16: in every reachable state each key of the ring map occurs in `circle`; so a
non-empty ring map comes with a non-empty circle, the index `% len(h.circle)` of `get` is
computed without a division by zero and lies within the circle, and `Get` returns a
result for every key. -/
theorem Get_total (h : ConsistentHash T) (hr : Reachable h) :
    (∀ c, c ∈ mapKeys h.ring → c ∈ h.circle) ∧
    (GoMap.len h.ring ≠ 0 → h.circle.length ≠ 0) ∧
    ∀ key, (GoMap.len h.ring ≠ 0 →
        Search h.circle.length (fun i => decide (h.circle.getD i 0 ≥ h.hashFunc key)) %
          h.circle.length < h.circle.length) ∧
      ∃ res, (Get h key).1 = some res := by
  have hk : ∀ c, c ∈ mapKeys h.ring → c ∈ h.circle := by
    intro c hc
    obtain ⟨n, hn⟩ := exists_get?_of_mem_mapKeys _ _ hc
    exact hr.inv.1.ring_mem c n hn
  have hne : GoMap.len h.ring ≠ 0 → h.circle.length ≠ 0 := by
    intro hlen h0
    have hring : h.ring ≠ [] := by
      intro e
      rw [e] at hlen
      exact hlen rfl
    exact circle_ne_nil_of_ring h hr.inv.1 hring (List.length_eq_zero.mp h0)
  refine ⟨hk, hne, fun key => ⟨fun hlen => Nat.mod_lt _ (Nat.pos_of_ne_zero (hne hlen)), ?_⟩⟩
  by_cases hring : h.ring = []
  · exact ⟨_, by rw [Get_fst, get_ring_nil h key hring]⟩
  · obtain ⟨c, _, hg⟩ := get_found h key hring (circle_ne_nil_of_ring h hr.inv.1 hring)
    exact ⟨_, by rw [Get_fst, hg]⟩

theorem Get_total_witness :
    Reachable smallRing ∧ GoMap.len smallRing.ring ≠ 0 ∧
    (∀ c, c ∈ mapKeys smallRing.ring → c ∈ smallRing.circle) ∧
    smallRing.circle.length ≠ 0 ∧ ∃ res, (Get smallRing "key").1 = some res :=
  have hr : Reachable smallRing := Reachable.addReplicas _ _ _ (Reachable.new _ _)
  have hl : GoMap.len smallRing.ring ≠ 0 := by decide
  ⟨hr, hl, (Get_total smallRing hr).1, (Get_total smallRing hr).2.1 hl,
    ((Get_total smallRing hr).2.2 "key").2⟩

/-- C18: in every reachable state, whatever the hash function, `circle` is in ascending
(non-decreasing) order. -/
theorem circle_sorted (h : ConsistentHash T) (hr : Reachable h) :
    h.circle.Sorted (· ≤ ·) :=
  hr.inv.2

theorem circle_sorted_witness :
    Reachable (RemoveString ["X"] twoRing) ∧
    (RemoveString ["X"] twoRing).circle.Sorted (· ≤ ·) :=
  ⟨Reachable.removeString _ _
      (Reachable.addReplicas _ _ _ (Reachable.addReplicas _ _ _ (Reachable.new _ _))),
    circle_sorted _ (Reachable.removeString _ _
      (Reachable.addReplicas _ _ _ (Reachable.addReplicas _ _ _ (Reachable.new _ _))))⟩

end ConsistentHash
namespace ConsistentHash

variable {T : Type} [Node T]

/-! ## `New` and its options -/

theorem foldl_options_replicas (calls : List OptionCall) (o : options) :
    ((calls.map OptionCall.toOption).foldl (fun o opt => opt o) o).replicas =
      (calls.reverse.findSome? (fun c =>
        match c with
        | .withReplicas r => some r
        | .withHashFunc _ => none)).getD o.replicas := by
  induction calls using List.reverseRecOn with
  | nil => rfl
  | append_singleton init last ih =>
    rw [List.map_append, List.foldl_append, List.reverse_append]
    cases last with
    | withHashFunc f =>
      simp only [List.map_cons, List.map_nil, List.foldl_cons, List.foldl_nil,
        List.reverse_cons, List.reverse_nil, List.nil_append, List.singleton_append,
        List.findSome?_cons]
      exact ih
    | withReplicas r =>
      simp only [List.map_cons, List.map_nil, List.foldl_cons, List.foldl_nil,
        List.reverse_cons, List.reverse_nil, List.nil_append, List.singleton_append,
        List.findSome?_cons]
      rfl

theorem New_replicas (checksumIEEE : String → Nat) (opts : List RingOption) :
    (New T checksumIEEE opts).replicas =
      max (opts.foldl (fun o opt => opt o) ({ hashFunc := none, replicas := 0 } : options)).replicas
        minReplicas := by
  unfold New
  dsimp only
  split
  · next hlt => exact (max_eq_right (Nat.le_of_lt hlt)).symm
  · next hlt => exact (max_eq_left (Nat.le_of_not_lt hlt)).symm

/-- C14: for every list of `WithHashFunc` and `WithReplicas` options, `New` returns a ring
with no members, an empty circle and an empty ring map whose replica count is
`max(r, 101)`, `r` being the value of the last `WithReplicas` option (0 when there is
none); without options the count is 101, with `WithReplicas(200)` it is 200. -/
theorem New_replica_floor (checksumIEEE : String → Nat) (calls : List OptionCall)
    (f : Option HashFunc) :
    ((New T checksumIEEE (calls.map OptionCall.toOption)).nodes = [] ∧
      (New T checksumIEEE (calls.map OptionCall.toOption)).circle = [] ∧
      (New T checksumIEEE (calls.map OptionCall.toOption)).ring = [] ∧
      GetNodes (New T checksumIEEE (calls.map OptionCall.toOption)) = []) ∧
    (New T checksumIEEE (calls.map OptionCall.toOption)).replicas =
      max (lastReplicas calls) 101 ∧
    (New T checksumIEEE []).replicas = 101 ∧
    (New T checksumIEEE [WithReplicas 200]).replicas = 200 ∧
    (New T checksumIEEE [WithHashFunc f, WithReplicas 200]).replicas = 200 := by
  refine ⟨⟨rfl, rfl, rfl, rfl⟩, ?_, rfl, rfl, rfl⟩
  rw [New_replicas, foldl_options_replicas]
  rfl

end ConsistentHash
namespace ConsistentHash

variable {T : Type} [Node T]

/-! ## The length of the circle after `AddReplicas` -/

theorem length_vnodeHashes (hashFunc : HashFunc) (node : String) (n : Nat) :
    (vnodeHashes hashFunc node n).length = n := by
  simp [vnodeHashes]

theorem contains_addNode (r : Nat) (h : ConsistentHash T) (node : T) (s : String) :
    contains (addNode r h node) s = (contains h s || decide (Node.String node = s)) := by
  cases hn : contains h (Node.String node) with
  | true =>
    rw [addNode_old r h node hn]
    by_cases hs : Node.String node = s
    · subst hs; simp [hn]
    · simp [hs]
  | false =>
    obtain ⟨_, _, _, e4, _, _⟩ := addNode_new r h node hn
    simp only [contains, e4, GoMap.get?_set]
    by_cases hs : Node.String node = s
    · simp [hs]
    · simp [hs]

theorem foldl_addNode_length (r : Nat) (nodes : List T) (h : ConsistentHash T) :
    (nodes.foldl (addNode r) h).circle.length = h.circle.length +
      r * ((nodes.map Node.String).toFinset.filter (fun s => contains h s = false)).card := by
  induction nodes generalizing h with
  | nil => simp
  | cons n ns ih =>
    simp only [List.foldl_cons, List.map_cons, List.toFinset_cons]
    rw [ih (addNode r h n), Finset.filter_insert]
    cases hn : contains h (Node.String n) with
    | true =>
      rw [addNode_old r h n hn]
      simp
    | false =>
      obtain ⟨_, _, _, _, e5, _⟩ := addNode_new r h n hn
      rw [e5, List.length_append, length_vnodeHashes]
      simp only [if_true]
      have hfil : (ns.map Node.String).toFinset.filter
          (fun s => contains (addNode r h n) s = false) =
          ((ns.map Node.String).toFinset.filter (fun s => contains h s = false)).erase
            (Node.String n) := by
        ext s
        simp only [Finset.mem_filter, Finset.mem_erase, contains_addNode, Bool.or_eq_false_iff,
          decide_eq_false_iff_not]
        constructor
        · rintro ⟨h1, h2, h3⟩
          exact ⟨fun e => h3 e.symm, h1, h2⟩
        · rintro ⟨h1, h2, h3⟩
          exact ⟨h2, h3, fun e => h1 e.symm⟩
      rw [hfil, Finset.card_insert_eq_ite, Finset.card_erase_eq_ite]
      by_cases hm : Node.String n ∈
          (ns.map Node.String).toFinset.filter (fun s => contains h s = false)
      · have hpos := Finset.card_pos.mpr ⟨_, hm⟩
        simp only [hm, if_true]
        have : ((ns.map Node.String).toFinset.filter (fun s => contains h s = false)).card =
            (((ns.map Node.String).toFinset.filter (fun s => contains h s = false)).card - 1) + 1 := by
          omega
        rw [this, Nat.mul_add]
        simp only [Nat.add_sub_cancel]
        omega
      · simp only [hm, if_false]
        rw [Nat.mul_add]
        omega

/-- C13: for every ring state, `AddReplicas(r, nodes...)` makes the circle longer by
`min(r, replicas)` times the number of distinct labels of the list that were not members;
on a fresh ring `AddReplicas(5, node)` leaves a circle of length 5. -/
theorem AddReplicas_circle_length (r : Nat) (nodes : List T) (h : ConsistentHash T)
    (checksumIEEE : String → Nat) (opts : List RingOption) (node : T) :
    (AddReplicas r nodes h).circle.length = h.circle.length +
      min r h.replicas *
        ((nodes.map Node.String).toFinset.filter (fun s => contains h s = false)).card ∧
    (AddReplicas 5 [node] (New T checksumIEEE opts)).circle.length = 5 := by
  have key : ∀ (r : Nat) (nodes : List T) (h : ConsistentHash T),
      (AddReplicas r nodes h).circle.length = h.circle.length +
        min r h.replicas *
          ((nodes.map Node.String).toFinset.filter (fun s => contains h s = false)).card := by
    intro r nodes h
    obtain ⟨_, _, a3, _, _⟩ := AddReplicas_fields r nodes h
    have hmin : (if r > h.replicas then h.replicas else r) = min r h.replicas := by
      split_ifs with hgt
      · exact (min_eq_right (Nat.le_of_lt hgt)).symm
      · exact (min_eq_left (Nat.le_of_not_lt hgt)).symm
    rw [a3, hmin]
    have hlen : ∀ l : List Nat, (sortSlice l).length = l.length :=
      fun l => List.length_insertionSort (· ≤ ·) l
    rw [hlen, foldl_addNode_length]
    rfl
  refine ⟨key r nodes h, ?_⟩
  rw [key]
  have hrep : 5 ≤ (New T checksumIEEE opts).replicas :=
    le_trans (by decide) (New_inv (T := T) checksumIEEE opts).replicas_ge
  have hfil : ((([node] : List T).map Node.String).toFinset.filter
      (fun s => contains (New T checksumIEEE opts) s = false)).card = 1 := by
    simp [contains, New, GoMap.get?]
  rw [hfil, min_eq_left hrep]
  rfl

end ConsistentHash
namespace ConsistentHash

variable {T : Type} [Node T]

/-! ## The membership map after `Add` -/

theorem mapKeys_set {K V : Type} [DecidableEq K] (m : GoMap K V) (k : K) (v : V) :
    mapKeys (GoMap.set m k v) = if k ∈ mapKeys m then mapKeys m else mapKeys m ++ [k] := by
  induction m with
  | nil => simp [GoMap.set, mapKeys]
  | cons e m ih =>
    obtain ⟨a, b⟩ := e
    simp only [GoMap.set]
    by_cases hak : a = k
    · subst hak
      simp [mapKeys]
    · have hka : ¬ k = a := fun e => hak e.symm
      rw [if_neg hak]
      have ih' : List.map Prod.fst (GoMap.set m k v) =
          if k ∈ List.map Prod.fst m then List.map Prod.fst m else List.map Prod.fst m ++ [k] := ih
      simp only [mapKeys, List.map_cons, List.mem_cons, hka, false_or, ih']
      split_ifs <;> simp

theorem nodup_mapKeys_set {K V : Type} [DecidableEq K] (m : GoMap K V) (k : K) (v : V)
    (h : (mapKeys m).Nodup) : (mapKeys (GoMap.set m k v)).Nodup := by
  rw [mapKeys_set]
  split_ifs with hk
  · exact h
  · exact List.Nodup.append h (List.nodup_singleton k) (by simpa using hk)

theorem mem_iff_get? {K V : Type} [DecidableEq K] (m : GoMap K V) (hnd : (mapKeys m).Nodup)
    (k : K) (v : V) : (k, v) ∈ m ↔ GoMap.get? m k = some v := by
  induction m with
  | nil => simp [GoMap.get?]
  | cons e m ih =>
    obtain ⟨a, b⟩ := e
    simp only [mapKeys, List.map_cons, List.nodup_cons] at hnd
    simp only [GoMap.get?, List.mem_cons, Prod.mk.injEq]
    by_cases hak : a = k
    · subst hak
      rw [if_pos rfl]
      constructor
      · rintro (⟨_, rfl⟩ | hm)
        · rfl
        · exact absurd (List.mem_map.mpr ⟨(a, v), hm, rfl⟩) hnd.1
      · intro hs
        exact Or.inl ⟨rfl, (Option.some.inj hs).symm⟩
    · rw [if_neg hak, ← ih hnd.2]
      constructor
      · rintro (⟨rfl, _⟩ | hm)
        · exact absurd rfl hak
        · exact hm
      · exact fun hm => Or.inr hm

theorem foldl_addNode_nodes (r : Nat) (nodes : List T) (h : ConsistentHash T) :
    ((mapKeys h.nodes).Nodup → (mapKeys (nodes.foldl (addNode r) h).nodes).Nodup) ∧
    ∀ s, GoMap.get? (nodes.foldl (addNode r) h).nodes s =
      match GoMap.get? h.nodes s with
      | some n => some n
      | none => nodes.find? (fun m => decide (Node.String m = s)) := by
  induction nodes generalizing h with
  | nil =>
    refine ⟨id, fun s => ?_⟩
    show GoMap.get? h.nodes s = _
    cases hs : GoMap.get? h.nodes s <;> rfl
  | cons n ns ih =>
    obtain ⟨ih1, ih2⟩ := ih (addNode r h n)
    simp only [List.foldl_cons]
    cases hn : contains h (Node.String n) with
    | true =>
      rw [addNode_old r h n hn] at ih1 ih2 ⊢
      refine ⟨ih1, fun s => ?_⟩
      rw [ih2 s]
      cases hs : GoMap.get? h.nodes s with
      | some v => rfl
      | none =>
        have hne : ¬ Node.String n = s := by
          intro e
          rw [contains_iff] at hn
          obtain ⟨v, hv⟩ := hn
          rw [e, hs] at hv
          exact absurd hv (by simp)
        simp [List.find?_cons, hne]
    | false =>
      obtain ⟨_, _, _, e4, _, _⟩ := addNode_new r h n hn
      rw [e4] at ih1 ih2
      refine ⟨fun hnd => ih1 (nodup_mapKeys_set _ _ _ hnd), fun s => ?_⟩
      rw [ih2 s, GoMap.get?_set]
      by_cases he : Node.String n = s
      · subst he
        rw [if_pos rfl, (contains_false_iff h _).mp hn]
        simp [List.find?_cons]
      · rw [if_neg he]
        cases hs : GoMap.get? h.nodes s with
        | some v => rfl
        | none => simp [List.find?_cons, he]

theorem Add_New_nodes (checksumIEEE : String → Nat) (opts : List RingOption) (nodes : List T) :
    (mapKeys (Add nodes (New T checksumIEEE opts)).nodes).Nodup ∧
    ∀ s, GoMap.get? (Add nodes (New T checksumIEEE opts)).nodes s =
      nodes.find? (fun m => decide (Node.String m = s)) := by
  obtain ⟨_, _, _, _, a5⟩ :=
    AddReplicas_fields (New T checksumIEEE opts).replicas nodes (New T checksumIEEE opts)
  have a5' : (Add nodes (New T checksumIEEE opts)).nodes = _ := a5
  obtain ⟨f1, f2⟩ := foldl_addNode_nodes
    (if (New T checksumIEEE opts).replicas > (New T checksumIEEE opts).replicas then
      (New T checksumIEEE opts).replicas else (New T checksumIEEE opts).replicas) nodes
    { New T checksumIEEE opts with mu := (New T checksumIEEE opts).mu.Lock }
  rw [a5']
  refine ⟨f1 (by simp [mapKeys, New]), fun s => ?_⟩
  rw [f2 s]
  rfl

theorem Add_snapshot_general (checksumIEEE : String → Nat) (opts : List RingOption)
    (nodes : List T) :
    ((GetStringNodes (Add nodes (New T checksumIEEE opts))).Nodup ∧
      ∀ s, s ∈ GetStringNodes (Add nodes (New T checksumIEEE opts)) ↔
        ∃ n, n ∈ nodes ∧ Node.String n = s) ∧
    ((GetNodes (Add nodes (New T checksumIEEE opts))).map Node.String =
        GetStringNodes (Add nodes (New T checksumIEEE opts)) ∧
      ∀ n, n ∈ GetNodes (Add nodes (New T checksumIEEE opts)) ↔
        nodes.find? (fun m => decide (Node.String m = Node.String n)) = some n) := by
  obtain ⟨hnd, hget⟩ := Add_New_nodes (T := T) checksumIEEE opts nodes
  generalize Add nodes (New T checksumIEEE opts) = h at hnd hget
  have hlabel : ∀ k v, GoMap.get? h.nodes k = some v → Node.String v = k := by
    intro k v hkv
    rw [hget] at hkv
    simpa using List.find?_some hkv
  refine ⟨⟨hnd, fun s => ⟨fun hs => ?_, fun hs => ?_⟩⟩, ?_, fun n => ⟨fun hn => ?_, fun hn => ?_⟩⟩
  · obtain ⟨v, hv⟩ := exists_get?_of_mem_mapKeys _ _ hs
    exact ⟨v, List.mem_of_find?_eq_some (by rw [← hget]; exact hv), hlabel s v hv⟩
  · obtain ⟨n, hn, hns⟩ := hs
    have hsome : (nodes.find? (fun m => decide (Node.String m = s))).isSome := by
      rw [List.find?_isSome]
      exact ⟨n, hn, by simpa using hns⟩
    obtain ⟨v, hv⟩ := Option.isSome_iff_exists.mp hsome
    exact mem_mapKeys_of_get? _ s v (by rw [hget]; exact hv)
  · show List.map Node.String (List.map Prod.snd h.nodes) = List.map Prod.fst h.nodes
    rw [List.map_map]
    apply List.map_congr_left
    intro e he
    exact hlabel e.1 e.2 ((mem_iff_get? _ hnd e.1 e.2).mp he)
  · obtain ⟨e, he, rfl⟩ := List.mem_map.mp hn
    have hg := (mem_iff_get? _ hnd e.1 e.2).mp he
    rw [hlabel e.1 e.2 hg, ← hget]
    exact hg
  · have hg : GoMap.get? h.nodes (Node.String n) = some n := by rw [hget]; exact hn
    exact List.mem_map.mpr ⟨(Node.String n, n), (mem_iff_get? _ hnd _ _).mpr hg, rfl⟩

/-- C15: on the ring built by `New` and `Add(nodes...)`, `GetStringNodes()` holds each
label of the list once and nothing else, and `GetNodes()` holds one node per label,
the first node of the list that carries it; for `[node1, node2]` these are the two
labels and the two nodes (the order of the results is not part of the statement). -/
theorem Add_snapshot (checksumIEEE : String → Nat) (opts : List RingOption) (nodes : List T) :
    ((GetStringNodes (Add nodes (New T checksumIEEE opts))).Nodup ∧
      ∀ s, s ∈ GetStringNodes (Add nodes (New T checksumIEEE opts)) ↔
        ∃ n, n ∈ nodes ∧ Node.String n = s) ∧
    ((GetNodes (Add nodes (New T checksumIEEE opts))).map Node.String =
        GetStringNodes (Add nodes (New T checksumIEEE opts)) ∧
      ∀ n, n ∈ GetNodes (Add nodes (New T checksumIEEE opts)) ↔
        nodes.find? (fun m => decide (Node.String m = Node.String n)) = some n) ∧
    (List.Perm (GetStringNodes (Add [(⟨"node1"⟩ : testNode), ⟨"node2"⟩]
        (New testNode checksumIEEE opts))) ["node1", "node2"] ∧
      List.Perm (GetNodes (Add [(⟨"node1"⟩ : testNode), ⟨"node2"⟩]
        (New testNode checksumIEEE opts))) [⟨"node1"⟩, ⟨"node2"⟩]) := by
  have key := Add_snapshot_general (T := T) checksumIEEE opts nodes
  have ex := Add_snapshot_general (T := testNode) checksumIEEE opts [⟨"node1"⟩, ⟨"node2"⟩]
  refine ⟨key.1, key.2, ?_, ?_⟩
  · rw [List.perm_ext_iff_of_nodup ex.1.1 (by decide)]
    intro s
    rw [ex.1.2 s]
    constructor
    · rintro ⟨n, hn, rfl⟩
      simp only [List.mem_cons, List.mem_singleton, List.not_mem_nil, or_false] at hn ⊢
      rcases hn with rfl | rfl
      · exact Or.inl rfl
      · exact Or.inr rfl
    · intro hs
      simp only [List.mem_cons, List.mem_singleton, List.not_mem_nil, or_false] at hs
      rcases hs with rfl | rfl
      · exact ⟨⟨"node1"⟩, by simp, rfl⟩
      · exact ⟨⟨"node2"⟩, by simp, rfl⟩
  · have hnd : (GetNodes (Add [(⟨"node1"⟩ : testNode), ⟨"node2"⟩]
        (New testNode checksumIEEE opts))).Nodup := by
      apply List.Nodup.of_map Node.String
      rw [ex.2.1]
      exact ex.1.1
    rw [List.perm_ext_iff_of_nodup hnd (by decide)]
    intro n
    rw [ex.2.2 n]
    constructor
    · intro hf
      have := List.mem_of_find?_eq_some hf
      simpa using this
    · intro hn
      simp only [List.mem_cons, List.mem_singleton, List.not_mem_nil, or_false] at hn
      rcases hn with rfl | rfl
      · rfl
      · rfl

end ConsistentHash
namespace ConsistentHash

variable {T : Type} [Node T]

/-! ## Two members on a fresh ring -/

/-- The ring after `Add(a)` and `Add(b)` on a fresh ring, for two labels. -/
theorem two_adds (checksumIEEE : String → Nat) (opts : List RingOption) (a b : T)
    (hab : Node.String a ≠ Node.String b) :
    (∀ c, GoMap.get? (Add [a] (New T checksumIEEE opts)).ring c =
      if c ∈ vnodeHashes (New T checksumIEEE opts).hashFunc (Node.String a)
          (New T checksumIEEE opts).replicas then some a else none) ∧
    contains (Add [a] (New T checksumIEEE opts)) (Node.String b) = false ∧
    (Add [b] (Add [a] (New T checksumIEEE opts))).hashFunc =
      (New T checksumIEEE opts).hashFunc ∧
    (Add [b] (Add [a] (New T checksumIEEE opts))).replicas =
      (New T checksumIEEE opts).replicas ∧
    (Add [b] (Add [a] (New T checksumIEEE opts))).circle =
      sortSlice (sortSlice (vnodeHashes (New T checksumIEEE opts).hashFunc (Node.String a)
          (New T checksumIEEE opts).replicas) ++
        vnodeHashes (New T checksumIEEE opts).hashFunc (Node.String b)
          (New T checksumIEEE opts).replicas) ∧
    (∀ c, GoMap.get? (Add [b] (Add [a] (New T checksumIEEE opts))).ring c =
      if c ∈ vnodeHashes (New T checksumIEEE opts).hashFunc (Node.String b)
          (New T checksumIEEE opts).replicas then some b
      else if c ∈ vnodeHashes (New T checksumIEEE opts).hashFunc (Node.String a)
          (New T checksumIEEE opts).replicas then some a else none) ∧
    contains (Add [b] (Add [a] (New T checksumIEEE opts))) (Node.String a) = true ∧
    contains (Add [b] (Add [a] (New T checksumIEEE opts))) (Node.String b) = true := by
  generalize hh0 : New T checksumIEEE opts = h0
  have hc0 : h0.circle = [] := by rw [← hh0]; rfl
  have hr0 : h0.ring = [] := by rw [← hh0]; rfl
  have hn0 : h0.nodes = [] := by rw [← hh0]; rfl
  have hna : contains h0 (Node.String a) = false := by simp [contains, hn0, GoMap.get?]
  obtain ⟨a1, a2, a3, a4, a5⟩ := AddReplicas_single h0.replicas a h0 hna
  simp only [gt_iff_lt, lt_irrefl, if_false] at a4 a5
  rw [hc0, List.nil_append] at a4
  have hh1 : AddReplicas h0.replicas [a] h0 = Add [a] h0 := rfl
  rw [hh1] at a1 a2 a3 a4 a5
  generalize Add [a] h0 = h1 at *
  have hnb : contains h1 (Node.String b) = false := by
    rw [contains_false_iff, a3, GoMap.get?_set, if_neg hab, hn0]
    rfl
  obtain ⟨b1, b2, b3, b4, b5⟩ := AddReplicas_single h1.replicas b h1 hnb
  simp only [gt_iff_lt, lt_irrefl, if_false] at b4 b5
  have hh2 : AddReplicas h1.replicas [b] h1 = Add [b] h1 := rfl
  rw [hh2] at b1 b2 b3 b4 b5
  generalize Add [b] h1 = h2 at *
  rw [a1, a2] at b4 b5
  refine ⟨fun c => ?_, hnb, b1.trans a1, b2.trans a2, by rw [b4, a4], fun c => ?_, ?_, ?_⟩
  · rw [a5, hr0]
    rfl
  · rw [b5, a5, hr0]
    rfl
  · rw [contains_iff]
    exact ⟨a, by rw [b3, GoMap.get?_set, if_neg (fun e => hab e.symm), a3, GoMap.get?_set,
      if_pos rfl]⟩
  · rw [contains_iff]
    exact ⟨b, by rw [b3, GoMap.get?_set, if_pos rfl]⟩

/-- After `Add(a)`, `Add(b)` on a fresh ring, in either order, `Remove` of `a` deletes
the ring entry of every virtual-node hash of `a`, and leaves on the circle the hashes
that `b` has in common with `a`. -/
theorem remove_after_two_adds (h : ConsistentHash T) (s : String) (va vb : List Nat)
    (hs : h.circle.Sorted (· ≤ ·)) (hc : contains h s = true)
    (hva : vnodeHashes h.hashFunc s h.replicas = va)
    (hcount : ∀ x, h.circle.count x = va.count x + vb.count x) (x : Nat) (hxa : x ∈ va) :
    GoMap.get? (removeNode { h with mu := h.mu.Lock } s).ring x = none ∧
    (x ∈ vb → x ∈ (removeNode { h with mu := h.mu.Lock } s).circle) := by
  have hc' : contains { h with mu := h.mu.Lock } s = true := hc
  obtain ⟨_, _, _, _, _, _, e7, e8⟩ := removeNode_member { h with mu := h.mu.Lock } s hc'
  have e8' := e8 hs
  have hv : vnodeHashes ({ h with mu := h.mu.Lock } : ConsistentHash T).hashFunc s
      ({ h with mu := h.mu.Lock } : ConsistentHash T).replicas = va := hva
  rw [hv] at e7 e8'
  refine ⟨by rw [e7, if_pos hxa], fun hxb => ?_⟩
  rw [e8', ← List.count_pos_iff, count_diff]
  have h1 : ({ h with mu := h.mu.Lock } : ConsistentHash T).circle.count x =
      va.count x + vb.count x := hcount x
  have h2 := List.count_pos_iff.mpr hxb
  omega

end ConsistentHash
namespace ConsistentHash

variable {T : Type} [Node T]

theorem ring_Remove_single (X : T) (h : ConsistentHash T) :
    (Remove [X] h).ring = (removeNode { h with mu := h.mu.Lock } (Node.String X)).ring ∧
    (Remove [X] h).circle = (removeNode { h with mu := h.mu.Lock } (Node.String X)).circle :=
  ⟨rfl, rfl⟩

theorem not_mem_mapKeys_of_get? {K V : Type} [DecidableEq K] (m : GoMap K V) (k : K)
    (h : GoMap.get? m k = none) : k ∉ mapKeys m := by
  intro hm
  obtain ⟨v, hv⟩ := exists_get?_of_mem_mapKeys m k hm
  rw [h] at hv
  exact absurd hv (by simp)

/-! ## Claims on the virtual nodes of two members -/

/-- On the ring with the one member `A1`, whatever the hash function,
`A` is not a member and `ring` maps the hash of `16777619A10` (virtual node 0 of `A1`) to
`A1`; after `Add(A)` and `Remove(A)` that entry is gone, because `16777619A10` is also
virtual node 10 of `A`. So `ring` is not what it was before the `Add`. -/
theorem Add_Remove_loses_entry (checksumIEEE : String → Nat) (hf : HashFunc) :
    (Reachable (Add [(⟨"A1"⟩ : testNode)] (New testNode checksumIEEE [WithHashFunc (some hf)])) ∧
      contains (Add [(⟨"A1"⟩ : testNode)] (New testNode checksumIEEE [WithHashFunc (some hf)]))
        (Node.String (⟨"A"⟩ : testNode)) = false) ∧
    GoMap.get? (Add [(⟨"A1"⟩ : testNode)]
      (New testNode checksumIEEE [WithHashFunc (some hf)])).ring (hf "16777619A10") =
      some ⟨"A1"⟩ ∧
    GoMap.get? (Remove [(⟨"A"⟩ : testNode)] (Add [⟨"A"⟩] (Add [⟨"A1"⟩]
      (New testNode checksumIEEE [WithHashFunc (some hf)])))).ring (hf "16777619A10") = none ∧
    (Remove [(⟨"A"⟩ : testNode)] (Add [⟨"A"⟩] (Add [⟨"A1"⟩]
      (New testNode checksumIEEE [WithHashFunc (some hf)])))).ring ≠
      (Add [(⟨"A1"⟩ : testNode)] (New testNode checksumIEEE [WithHashFunc (some hf)])).ring := by
  obtain ⟨hrep, hhf⟩ := New_WithHashFunc (T := testNode) checksumIEEE hf
  obtain ⟨t1, t2, t3, t4, t5, _, t7, _⟩ := two_adds checksumIEEE [WithHashFunc (some hf)]
    (⟨"A1"⟩ : testNode) ⟨"A"⟩ (by decide)
  simp only [hrep, hhf] at t1 t3 t4 t5
  have hx1 : hf "16777619A10" ∈ vnodeHashes hf (Node.String (⟨"A1"⟩ : testNode)) minReplicas :=
    (mem_vnodeHashes _ _ _ _).mpr ⟨0, by decide, rfl⟩
  have hx2 : hf "16777619A10" ∈ vnodeHashes hf (Node.String (⟨"A"⟩ : testNode)) minReplicas :=
    (mem_vnodeHashes _ _ _ _).mpr ⟨10, by decide, rfl⟩
  have hbefore := t1 (hf "16777619A10")
  rw [if_pos hx1] at hbefore
  have hsorted : (Add [(⟨"A"⟩ : testNode)] (Add [⟨"A1"⟩]
      (New testNode checksumIEEE [WithHashFunc (some hf)]))).circle.Sorted (· ≤ ·) := by
    rw [t5]; exact sortSlice_sorted _
  have hafter := (remove_after_two_adds _ (Node.String (⟨"A"⟩ : testNode))
    (vnodeHashes hf (Node.String (⟨"A"⟩ : testNode)) minReplicas)
    (vnodeHashes hf (Node.String (⟨"A1"⟩ : testNode)) minReplicas) hsorted t7
    (by rw [t3, t4])
    (fun x => by rw [t5, count_sortSlice, List.count_append, count_sortSlice, Nat.add_comm])
    (hf "16777619A10") hx2).1
  rw [← (ring_Remove_single _ _).1] at hafter
  refine ⟨⟨Reachable.add _ _ (Reachable.new _ _), t2⟩, hbefore, hafter, ?_⟩
  intro heq
  rw [heq, hbefore] at hafter
  exact absurd hafter (by simp)

/-- C19 fails on the code: on a fresh ring, whatever the hash function, after `Add(A)`,
`Add(A1)` and `Remove(A)` the hash of `16777619A10` is a value of `circle` and is not a key
of the ring map. -/
theorem circle_value_without_entry (checksumIEEE : String → Nat) (hf : HashFunc) :
    Reachable (Remove [(⟨"A"⟩ : testNode)] (Add [⟨"A1"⟩] (Add [⟨"A"⟩]
      (New testNode checksumIEEE [WithHashFunc (some hf)])))) ∧
    hf "16777619A10" ∈ (Remove [(⟨"A"⟩ : testNode)] (Add [⟨"A1"⟩] (Add [⟨"A"⟩]
      (New testNode checksumIEEE [WithHashFunc (some hf)])))).circle ∧
    hf "16777619A10" ∉ mapKeys (Remove [(⟨"A"⟩ : testNode)] (Add [⟨"A1"⟩] (Add [⟨"A"⟩]
      (New testNode checksumIEEE [WithHashFunc (some hf)])))).ring := by
  obtain ⟨hrep, hhf⟩ := New_WithHashFunc (T := testNode) checksumIEEE hf
  obtain ⟨_, _, t3, t4, t5, _, t7, _⟩ := two_adds checksumIEEE [WithHashFunc (some hf)]
    (⟨"A"⟩ : testNode) ⟨"A1"⟩ (by decide)
  simp only [hrep, hhf] at t3 t4 t5
  have hx1 : hf "16777619A10" ∈ vnodeHashes hf (Node.String (⟨"A1"⟩ : testNode)) minReplicas :=
    (mem_vnodeHashes _ _ _ _).mpr ⟨0, by decide, rfl⟩
  have hx2 : hf "16777619A10" ∈ vnodeHashes hf (Node.String (⟨"A"⟩ : testNode)) minReplicas :=
    (mem_vnodeHashes _ _ _ _).mpr ⟨10, by decide, rfl⟩
  have hsorted : (Add [(⟨"A1"⟩ : testNode)] (Add [⟨"A"⟩]
      (New testNode checksumIEEE [WithHashFunc (some hf)]))).circle.Sorted (· ≤ ·) := by
    rw [t5]; exact sortSlice_sorted _
  obtain ⟨hlook, hmem⟩ := remove_after_two_adds _ (Node.String (⟨"A"⟩ : testNode))
    (vnodeHashes hf (Node.String (⟨"A"⟩ : testNode)) minReplicas)
    (vnodeHashes hf (Node.String (⟨"A1"⟩ : testNode)) minReplicas) hsorted t7
    (by rw [t3, t4])
    (fun x => by rw [t5, count_sortSlice, List.count_append, count_sortSlice])
    (hf "16777619A10") hx2
  rw [← (ring_Remove_single _ _).1] at hlook
  have hmem' := hmem hx1
  rw [← (ring_Remove_single _ _).2] at hmem'
  exact ⟨Reachable.remove _ _ (Reachable.add _ _ (Reachable.add _ _ (Reachable.new _ _))),
    hmem', not_mem_mapKeys_of_get? _ _ hlook⟩

set_option maxRecDepth 1000000 in
/-- On a fresh ring, after `Add(A)` and `Add(A1)` (requested replica
count 101 each), whatever the hash function, the ring entry for virtual node 10 of the
member `A` belongs to `A1`; with the hash function `tailHash`, which gives distinct hashes
to the distinct names involved, `A` owns 91 entries of the ring map, not 101. -/
theorem member_owns_fewer_entries (checksumIEEE : String → Nat) (hf : HashFunc) :
    (contains (Add [(⟨"A1"⟩ : testNode)] (Add [⟨"A"⟩]
        (New testNode checksumIEEE [WithHashFunc (some hf)]))) "A" = true ∧
      GoMap.get? (Add [(⟨"A1"⟩ : testNode)] (Add [⟨"A"⟩]
        (New testNode checksumIEEE [WithHashFunc (some hf)]))).ring
        (hf (getVnodeBytes "A" 10)) = some ⟨"A1"⟩) ∧
    (min (New testNode lengthHash [WithHashFunc (some tailHash)]).replicas
        (New testNode lengthHash [WithHashFunc (some tailHash)]).replicas = 101 ∧
      ownedEntries (Add [(⟨"A1"⟩ : testNode)] (Add [⟨"A"⟩]
        (New testNode lengthHash [WithHashFunc (some tailHash)]))) ⟨"A"⟩ = 91) := by
  obtain ⟨hrep, hhf⟩ := New_WithHashFunc (T := testNode) checksumIEEE hf
  obtain ⟨_, _, _, _, _, t6, t7, _⟩ := two_adds checksumIEEE [WithHashFunc (some hf)]
    (⟨"A"⟩ : testNode) ⟨"A1"⟩ (by decide)
  simp only [hrep, hhf] at t6
  have hx1 : hf (getVnodeBytes "A" 10) ∈
      vnodeHashes hf (Node.String (⟨"A1"⟩ : testNode)) minReplicas :=
    (mem_vnodeHashes _ _ _ _).mpr ⟨0, by decide, rfl⟩
  refine ⟨⟨t7, by rw [t6, if_pos hx1]⟩, by decide, by decide!⟩

end ConsistentHash
namespace ConsistentHash

/-! ## A hash function without collisions -/

theorem char_toNat_lt (c : Char) : c.toNat < 4294967296 := by
  have := UInt32.toNat_lt c.val
  simpa [Char.toNat] using this

theorem char_eq_of_toNat (c d : Char) (h : c.toNat = d.toNat) : c = d := by
  rw [← Char.ofNat_toNat c, ← Char.ofNat_toNat d, h]

theorem foldl_digits_injective (l₁ l₂ : List Char)
    (h : l₁.foldl (fun acc c => acc * 4294967297 + (c.toNat + 1)) 0 =
      l₂.foldl (fun acc c => acc * 4294967297 + (c.toNat + 1)) 0) : l₁ = l₂ := by
  induction l₁ using List.reverseRecOn generalizing l₂ with
  | nil =>
    rcases List.eq_nil_or_concat' l₂ with rfl | ⟨t, c, rfl⟩
    · rfl
    · simp only [List.foldl_nil, List.foldl_append, List.foldl_cons] at h
      omega
  | append_singleton s c ih =>
    rcases List.eq_nil_or_concat' l₂ with rfl | ⟨t, d, rfl⟩
    · simp only [List.foldl_nil, List.foldl_append, List.foldl_cons] at h
      omega
    · simp only [List.foldl_append, List.foldl_cons, List.foldl_nil] at h
      have hc := char_toNat_lt c
      have hd := char_toNat_lt d
      have h1 : s.foldl (fun acc c => acc * 4294967297 + (c.toNat + 1)) 0 =
          t.foldl (fun acc c => acc * 4294967297 + (c.toNat + 1)) 0 := by omega
      have h2 : c.toNat = d.toNat := by omega
      rw [ih t h1, char_eq_of_toNat c d h2]

theorem nameHash_injective : Function.Injective nameHash :=
  fun _ _ h => String.ext (foldl_digits_injective _ _ h)

end ConsistentHash
namespace ConsistentHash

variable {T : Type} [Node T]

/-! ## Assignments followed by deletions of the same keys -/

theorem get?_ne_none_of_mem {K V : Type} [DecidableEq K] (m : GoMap K V) (x : K × V)
    (hx : x ∈ m) : ∃ v, GoMap.get? m x.1 = some v :=
  exists_get?_of_mem_mapKeys m x.1 (List.mem_map.mpr ⟨x, hx, rfl⟩)

theorem set_append_of_absent {K V : Type} [DecidableEq K] (m e : GoMap K V) (k : K) (v : V)
    (hk : GoMap.get? m k = none) : GoMap.set (m ++ e) k v = m ++ GoMap.set e k v := by
  induction m with
  | nil => rfl
  | cons x m ih =>
    obtain ⟨a, b⟩ := x
    simp only [GoMap.get?] at hk
    by_cases hak : a = k
    · rw [if_pos hak] at hk
      exact absurd hk (by simp)
    · rw [if_neg hak] at hk
      have ih' := ih hk
      show GoMap.set ((a, b) :: (m ++ e)) k v = (a, b) :: (m ++ GoMap.set e k v)
      simp only [GoMap.set, if_neg hak]
      rw [ih']

theorem keys_set_subset {K V : Type} [DecidableEq K] (e : GoMap K V) (k : K) (v : V)
    (x : K × V) (hx : x ∈ GoMap.set e k v) : x.1 = k ∨ x ∈ e := by
  induction e with
  | nil =>
    simp only [GoMap.set, List.mem_singleton] at hx
    exact Or.inl (by rw [hx])
  | cons y e ih =>
    obtain ⟨a, b⟩ := y
    simp only [GoMap.set] at hx
    by_cases hak : a = k
    · rw [if_pos hak] at hx
      rcases List.mem_cons.mp hx with h | h
      · exact Or.inl (by rw [h])
      · exact Or.inr (List.mem_cons_of_mem _ h)
    · rw [if_neg hak] at hx
      rcases List.mem_cons.mp hx with h | h
      · exact Or.inr (by rw [h]; exact List.mem_cons_self _ _)
      · rcases ih h with h' | h'
        · exact Or.inl h'
        · exact Or.inr (List.mem_cons_of_mem _ h')

theorem foldl_set_append {K V : Type} [DecidableEq K] (m : GoMap K V) (v : V) (all : List K)
    (habs : ∀ k, k ∈ all → GoMap.get? m k = none) (ks : List K) (hks : ∀ k, k ∈ ks → k ∈ all)
    (e : GoMap K V) (he : ∀ x, x ∈ e → x.1 ∈ all) :
    ∃ e', ks.foldl (fun m k => GoMap.set m k v) (m ++ e) = m ++ e' ∧
      ∀ x, x ∈ e' → x.1 ∈ all := by
  induction ks generalizing e with
  | nil => exact ⟨e, rfl, he⟩
  | cons k ks ih =>
    simp only [List.foldl_cons]
    rw [set_append_of_absent m e k v (habs k (hks k (List.mem_cons_self _ _)))]
    apply ih (fun k' hk' => hks k' (List.mem_cons_of_mem _ hk'))
    intro x hx
    rcases keys_set_subset e k v x hx with h | h
    · rw [h]; exact hks k (List.mem_cons_self _ _)
    · exact he x h

theorem foldl_delete_eq_filter {K V : Type} [DecidableEq K] (m : GoMap K V) (ks : List K) :
    ks.foldl (fun m k => GoMap.delete m k) m = m.filter (fun x => decide (x.1 ∉ ks)) := by
  induction ks generalizing m with
  | nil => simp
  | cons k ks ih =>
    simp only [List.foldl_cons]
    rw [ih, GoMap.delete, List.filter_filter]
    apply List.filter_congr
    intro x _
    simp only [List.mem_cons, not_or, ne_eq, Bool.and_eq_true, decide_eq_true_eq]
    by_cases h1 : x.1 = k <;> by_cases h2 : x.1 ∈ ks <;> simp [h1, h2]

/-- Assigning the keys of a list, none of them in the map, and deleting them again gives
the map back. -/
theorem foldl_delete_foldl_set {K V : Type} [DecidableEq K] (m : GoMap K V) (v : V)
    (ks : List K) (habs : ∀ k, k ∈ ks → GoMap.get? m k = none) :
    ks.foldl (fun m k => GoMap.delete m k) (ks.foldl (fun m k => GoMap.set m k v) m) = m := by
  obtain ⟨e, he, hkeys⟩ := foldl_set_append m v ks habs ks (fun _ h => h) [] (by simp)
  rw [List.append_nil] at he
  rw [he, foldl_delete_eq_filter, List.filter_append]
  have h1 : m.filter (fun x => decide (x.1 ∉ ks)) = m := by
    apply List.filter_eq_self.mpr
    intro x hx
    simp only [decide_eq_true_eq]
    intro hk
    obtain ⟨w, hw⟩ := get?_ne_none_of_mem m x hx
    rw [habs x.1 hk] at hw
    exact absurd hw (by simp)
  have h2 : e.filter (fun x => decide (x.1 ∉ ks)) = [] := by
    apply List.filter_eq_nil_iff.mpr
    intro x hx
    simp only [decide_eq_true_eq, not_not]
    exact hkeys x hx
  rw [h1, h2, List.append_nil]

/-! ## `Add` followed by `Remove` of the same node -/

theorem foldl_addVnode_ring (s : String) (node : T) (l : List Nat) (h : ConsistentHash T) :
    (l.foldl (addVnode s node) h).ring =
      (l.map (fun i => h.hashFunc (getVnodeBytes s i))).foldl
        (fun m k => GoMap.set m k node) h.ring := by
  induction l generalizing h with
  | nil => rfl
  | cons i l ih =>
    simp only [List.foldl_cons, List.map_cons]
    rw [ih]
    rfl

theorem foldl_removeVnode_ring (s : String) (l : List Nat) (h : ConsistentHash T) :
    (l.foldl (removeVnode s) h).ring =
      (l.map (fun i => h.hashFunc (getVnodeBytes s i))).foldl
        (fun m k => GoMap.delete m k) h.ring := by
  induction l generalizing h with
  | nil => rfl
  | cons i l ih =>
    obtain ⟨f1, _, _, _, f5⟩ := removeVnode_fields s h i
    simp only [List.foldl_cons, List.map_cons]
    rw [ih, f1, f5]

theorem sortSlice_append_diff (c v : List Nat) (hc : c.Sorted (· ≤ ·)) :
    (sortSlice (c ++ v)).diff v = c := by
  apply List.eq_of_perm_of_sorted (r := (· ≤ ·)) _ _ hc
  · rw [List.perm_iff_count]
    intro x
    rw [count_diff, count_sortSlice, List.count_append]
    omega
  · exact List.Pairwise.sublist (List.diff_sublist _ _) (sortSlice_sorted _)

end ConsistentHash
namespace ConsistentHash

variable {T : Type} [Node T]

theorem Add_single_ring (n : T) (h : ConsistentHash T)
    (hn : contains h (Node.String n) = false) :
    (Add [n] h).ring =
      (vnodeHashes h.hashFunc (Node.String n) h.replicas).foldl
        (fun m k => GoMap.set m k n) h.ring := by
  have hn' : contains { h with mu := h.mu.Lock } (Node.String n) = false := hn
  obtain ⟨_, _, _, a4, _⟩ := AddReplicas_fields h.replicas [n] h
  have a4' : (Add [n] h).ring = _ := a4
  rw [a4']
  simp only [gt_iff_lt, lt_irrefl, if_false, List.foldl_cons, List.foldl_nil, addNode, hn',
    Bool.false_eq_true]
  rw [foldl_addVnode_ring]
  rfl

theorem Remove_single_fields (n : T) (h : ConsistentHash T)
    (hc : contains h (Node.String n) = true) :
    (Remove [n] h).ring =
      (vnodeHashes h.hashFunc (Node.String n) h.replicas).foldl
        (fun m k => GoMap.delete m k) h.ring ∧
    (Remove [n] h).nodes = GoMap.delete h.nodes (Node.String n) ∧
    (h.circle.Sorted (· ≤ ·) → (Remove [n] h).circle =
      h.circle.diff (vnodeHashes h.hashFunc (Node.String n) h.replicas)) := by
  have hc' : contains { h with mu := h.mu.Lock } (Node.String n) = true := hc
  obtain ⟨_, _, _, e4, _, _, _, e8⟩ :=
    removeNode_member { h with mu := h.mu.Lock } (Node.String n) hc'
  refine ⟨?_, e4, e8⟩
  rw [(ring_Remove_single n h).1]
  simp only [removeNode, hc', Bool.not_true, Bool.false_eq_true, if_false]
  rw [foldl_removeVnode_ring]
  rfl

/-- C12 as stated fails: `nameHash` maps distinct strings to distinct values, `tailHash`
has 64-bit values and is distinct on the names hashed; with either, on the reachable ring
with the one member `A1` the label `A` is not a member, and after `Add(A)` and `Remove(A)`
the ring map is not what it was: its entry for the hash of `16777619A10`, virtual node 0
of `A1` and virtual node 10 of `A`, is gone. -/
theorem Add_Remove_changes_ring :
    Function.Injective nameHash ∧
    (Reachable (Add [(⟨"A1"⟩ : testNode)]
        (New testNode lengthHash [WithHashFunc (some nameHash)])) ∧
      contains (Add [(⟨"A1"⟩ : testNode)]
        (New testNode lengthHash [WithHashFunc (some nameHash)]))
        (Node.String (⟨"A"⟩ : testNode)) = false ∧
      (Remove [(⟨"A"⟩ : testNode)] (Add [⟨"A"⟩] (Add [⟨"A1"⟩]
        (New testNode lengthHash [WithHashFunc (some nameHash)])))).ring ≠
        (Add [(⟨"A1"⟩ : testNode)]
          (New testNode lengthHash [WithHashFunc (some nameHash)])).ring) ∧
    (Remove [(⟨"A"⟩ : testNode)] (Add [⟨"A"⟩] (Add [⟨"A1"⟩]
      (New testNode lengthHash [WithHashFunc (some tailHash)])))).ring ≠
      (Add [(⟨"A1"⟩ : testNode)]
        (New testNode lengthHash [WithHashFunc (some tailHash)])).ring :=
  ⟨nameHash_injective,
    ⟨(Add_Remove_loses_entry lengthHash nameHash).1.1,
      (Add_Remove_loses_entry lengthHash nameHash).1.2,
      (Add_Remove_loses_entry lengthHash nameHash).2.2.2⟩,
    (Add_Remove_loses_entry lengthHash tailHash).2.2.2⟩

/-- C12, amended: in every reachable state, for a node `n` whose label is not a member and
a hash function that, on the ring after `Add(n)`, gives pairwise distinct hashes to the
virtual nodes of the member labels, `Add(n)` followed by `Remove(n)` leaves `circle`,
`ring` and `nodes` equal to what they were before the `Add`. -/
theorem Add_Remove_restores (h : ConsistentHash T) (hr : Reachable h) (n : T)
    (hn : contains h (Node.String n) = false) (hd : VnodesDistinct (Add [n] h)) :
    (Remove [n] (Add [n] h)).circle = h.circle ∧
    (Remove [n] (Add [n] h)).ring = h.ring ∧
    (Remove [n] (Add [n] h)).nodes = h.nodes := by
  obtain ⟨hi, hs⟩ := hr.inv
  obtain ⟨a1, a2, a3, a4, _⟩ := AddReplicas_single h.replicas n h hn
  simp only [gt_iff_lt, lt_irrefl, if_false] at a4
  have hadd : AddReplicas h.replicas [n] h = Add [n] h := rfl
  rw [hadd] at a1 a2 a3 a4
  have hring := Add_single_ring n h hn
  have hcn : contains (Add [n] h) (Node.String n) = true := by
    rw [contains_iff]
    exact ⟨n, by rw [a3, GoMap.get?_set, if_pos rfl]⟩
  have hs' : (Add [n] h).circle.Sorted (· ≤ ·) := by rw [a4]; exact sortSlice_sorted _
  obtain ⟨r1, r2, r3⟩ := Remove_single_fields n (Add [n] h) hcn
  have habs : ∀ k, k ∈ vnodeHashes h.hashFunc (Node.String n) h.replicas →
      GoMap.get? h.ring k = none := by
    intro k hk
    cases hg : GoMap.get? h.ring k with
    | none => rfl
    | some m =>
      exfalso
      obtain ⟨hm1, hm2⟩ := hi.ring_label k m hg
      obtain ⟨i, hi', hki⟩ := (mem_vnodeHashes _ _ _ _).mp hk
      obtain ⟨j, hj, hkj⟩ := (mem_vnodeHashes _ _ _ _).mp hm2
      have hcm : contains (Add [n] h) (Node.String m) = true := by
        rw [contains_iff]
        refine ⟨m, ?_⟩
        rw [a3, GoMap.get?_set]
        split_ifs
        · rename_i he
          rw [← he, (contains_false_iff h _).mp hn] at hm1
          exact absurd hm1 (by simp)
        · exact hm1
      have heq := (hd (Node.String n) (Node.String m) i j hcn hcm (by rw [a2]; exact hi')
        (by rw [a2]; exact hj) (by rw [a1, ← hki, ← hkj])).1
      rw [heq, (contains_iff h _).mpr ⟨m, hm1⟩] at hn
      exact absurd hn (by simp)
  refine ⟨?_, ?_, ?_⟩
  · rw [r3 hs', a1, a2, a4]
    exact sortSlice_append_diff _ _ hs
  · rw [r1, a1, a2, hring]
    exact foldl_delete_foldl_set h.ring n _ habs
  · rw [r2, a3]
    have := foldl_delete_foldl_set h.nodes n [Node.String n]
      (fun k hk => by
        rw [List.mem_singleton] at hk
        rw [hk]
        exact (contains_false_iff h _).mp hn)
    simpa using this

set_option maxRecDepth 100000 in
theorem Add_Remove_restores_witness :
    (Reachable xRing ∧ contains xRing (Node.String (⟨"Y"⟩ : testNode)) = false ∧
      VnodesDistinct (Add [(⟨"Y"⟩ : testNode)] xRing)) ∧
    (Remove [(⟨"Y"⟩ : testNode)] (Add [⟨"Y"⟩] xRing)).circle = xRing.circle ∧
    (Remove [(⟨"Y"⟩ : testNode)] (Add [⟨"Y"⟩] xRing)).ring = xRing.ring ∧
    (Remove [(⟨"Y"⟩ : testNode)] (Add [⟨"Y"⟩] xRing)).nodes = xRing.nodes :=
  have hr : Reachable xRing := Reachable.addReplicas _ _ _ (Reachable.new _ _)
  have hn : contains xRing (Node.String (⟨"Y"⟩ : testNode)) = false := by decide
  have hd : VnodesDistinct (Add [(⟨"Y"⟩ : testNode)] xRing) :=
    vnodesDistinct_of_nodup _ (by decide!)
  ⟨⟨hr, hn, hd⟩, Add_Remove_restores xRing hr ⟨"Y"⟩ hn hd⟩

end ConsistentHash
namespace ConsistentHash

variable {T : Type} [Node T]

/-! ## Rings whose virtual nodes have distinct hashes -/

theorem nodup_mapKeys_foldl_set {K V : Type} [DecidableEq K] (ks : List K) (v : V)
    (m : GoMap K V) (h : (mapKeys m).Nodup) :
    (mapKeys (ks.foldl (fun m k => GoMap.set m k v) m)).Nodup := by
  induction ks generalizing m with
  | nil => exact h
  | cons k ks ih => exact ih _ (nodup_mapKeys_set m k v h)

theorem nodup_mapKeys_delete {K V : Type} [DecidableEq K] (m : GoMap K V) (k : K)
    (h : (mapKeys m).Nodup) : (mapKeys (GoMap.delete m k)).Nodup :=
  List.Nodup.sublist (List.Sublist.map _ (List.filter_sublist _)) h

theorem nodup_mapKeys_foldl_delete {K V : Type} [DecidableEq K] (ks : List K)
    (m : GoMap K V) (h : (mapKeys m).Nodup) :
    (mapKeys (ks.foldl (fun m k => GoMap.delete m k) m)).Nodup := by
  induction ks generalizing m with
  | nil => exact h
  | cons k ks ih => exact ih _ (nodup_mapKeys_delete m k h)

theorem addNode_ring_new (r : Nat) (h : ConsistentHash T) (node : T)
    (hn : contains h (Node.String node) = false) :
    (addNode r h node).ring =
      (vnodeHashes h.hashFunc (Node.String node) r).foldl (fun m k => GoMap.set m k node)
        h.ring := by
  simp only [addNode, hn, Bool.false_eq_true, if_false]
  rw [foldl_addVnode_ring]
  rfl

theorem Exact.congr {labels : List String} {h h' : ConsistentHash T} {req : String → Nat}
    (he : Exact labels h req) (h1 : h'.ring = h.ring) (h2 : h'.nodes = h.nodes)
    (h3 : h'.hashFunc = h.hashFunc) (h4 : h'.replicas = h.replicas) :
    Exact labels h' req := by
  refine ⟨by rw [h1]; exact he.keys_nodup, fun l hl => he.members l ?_, fun c n => ?_⟩
  · simpa only [contains, h2] using hl
  · rw [h1, h2, h3, h4]
    exact he.entries c n

theorem addNode_exact (labels : List String) (r r' : Nat) (g : ConsistentHash T)
    (q : String → Nat) (n : T) (hr : r' = min r g.replicas) (he : Exact labels g q)
    (hd : DistinctOn g.hashFunc g.replicas labels) (hn : Node.String n ∈ labels) :
    Exact labels (addNode r' g n)
      (fun l => if contains g l = false ∧ l = Node.String n then r else q l) := by
  cases hc : contains g (Node.String n) with
  | true =>
    rw [addNode_old r' g n hc]
    have hq : (fun l => if contains g l = false ∧ l = Node.String n then r else q l) = q := by
      funext l
      by_cases hl : l = Node.String n
      · subst hl
        simp [hc]
      · simp [hl]
    rw [hq]
    exact he
  | false =>
    obtain ⟨e1, e2, _, e4, _, e6⟩ := addNode_new r' g n hc
    have hnone := (contains_false_iff g _).mp hc
    have hle : r' ≤ g.replicas := by rw [hr]; exact Nat.min_le_right _ _
    refine ⟨?_, ?_, ?_⟩
    · rw [addNode_ring_new r' g n hc]
      exact nodup_mapKeys_foldl_set _ _ _ he.keys_nodup
    · intro l hl
      rw [contains_addNode] at hl
      rcases Bool.or_eq_true_iff.mp hl with h1 | h1
      · exact he.members l h1
      · have : Node.String n = l := by simpa using h1
        rw [← this]; exact hn
    · intro c m
      rw [e6, e1, e2, e4]
      constructor
      · intro hcm
        by_cases hv : c ∈ vnodeHashes g.hashFunc (Node.String n) r'
        · rw [if_pos hv] at hcm
          have hm : n = m := Option.some.inj hcm
          subst hm
          obtain ⟨i, hi, hci⟩ := (mem_vnodeHashes _ _ _ _).mp hv
          refine ⟨Node.String n, i, by rw [GoMap.get?_set, if_pos rfl], ?_, hci⟩
          simp only [hc, true_and, if_true]
          rw [← hr]; exact hi
        · rw [if_neg hv] at hcm
          obtain ⟨l, i, h1, h2, h3⟩ := (he.entries c m).mp hcm
          have hl : l ≠ Node.String n := by
            intro e
            rw [e, hnone] at h1
            exact absurd h1 (by simp)
          refine ⟨l, i, ?_, ?_, h3⟩
          · rw [GoMap.get?_set, if_neg (fun e => hl e.symm)]; exact h1
          · simp only [hl, and_false, if_false]; exact h2
      · rintro ⟨l, i, h1, h2, h3⟩
        rw [GoMap.get?_set] at h1
        by_cases hl : Node.String n = l
        · subst hl
          rw [if_pos rfl] at h1
          simp only [hc, true_and, if_true] at h2
          have hv : c ∈ vnodeHashes g.hashFunc (Node.String n) r' :=
            (mem_vnodeHashes _ _ _ _).mpr ⟨i, by rw [hr]; exact h2, h3⟩
          rw [if_pos hv]; exact h1
        · rw [if_neg hl] at h1
          have hl' : ¬ l = Node.String n := fun e => hl e.symm
          simp only [hl', and_false, if_false] at h2
          have hv : c ∉ vnodeHashes g.hashFunc (Node.String n) r' := by
            intro hv
            obtain ⟨j, hj, hcj⟩ := (mem_vnodeHashes _ _ _ _).mp hv
            have hlm : l ∈ labels := he.members l ((contains_iff g l).mpr ⟨m, h1⟩)
            exact hl' (hd l (Node.String n) i j hlm hn
              (lt_of_lt_of_le h2 (Nat.min_le_right _ _)) (lt_of_lt_of_le hj hle)
              (h3.symm.trans hcj)).1
          rw [if_neg hv]
          exact (he.entries c m).mpr ⟨l, i, h1, h2, h3⟩

theorem foldl_addNode_exact (labels : List String) (r r' : Nat) (nodes : List T)
    (g : ConsistentHash T) (q : String → Nat) (hr : r' = min r g.replicas)
    (he : Exact labels g q) (hd : DistinctOn g.hashFunc g.replicas labels)
    (hn : ∀ n, n ∈ nodes → Node.String n ∈ labels) :
    Exact labels (nodes.foldl (addNode r') g)
      (fun l => if contains g l = false ∧ l ∈ nodes.map Node.String then r else q l) := by
  induction nodes generalizing g q with
  | nil =>
    simp only [List.foldl_nil, List.map_nil, List.not_mem_nil, and_false, if_false]
    exact he
  | cons n ns ih =>
    obtain ⟨f1, f2, _⟩ := addNode_fields r' g n
    have step := addNode_exact labels r r' g q n hr he hd (hn n (List.mem_cons_self _ _))
    have := ih (addNode r' g n) _ (by rw [f2]; exact hr) step (by rw [f1, f2]; exact hd)
      (fun m hm => hn m (List.mem_cons_of_mem _ hm))
    simp only [List.foldl_cons]
    have hq : (fun l => if contains (addNode r' g n) l = false ∧ l ∈ ns.map Node.String then r
        else if contains g l = false ∧ l = Node.String n then r else q l) =
        (fun l => if contains g l = false ∧ l ∈ (n :: ns).map Node.String then r else q l) := by
      funext l
      rw [contains_addNode]
      by_cases h1 : contains g l = true
      · simp [h1]
      · have h1' : contains g l = false := by simpa using h1
        by_cases h2 : Node.String n = l
        · simp [h1', h2]
        · have h2' : ¬ l = Node.String n := fun e => h2 e.symm
          simp [h1', h2, h2']
    rw [← hq]
    exact this

end ConsistentHash
namespace ConsistentHash

variable {T : Type} [Node T]

theorem AddReplicas_exact (labels : List String) (r : Nat) (nodes : List T)
    (h : ConsistentHash T) (req : String → Nat) (he : Exact labels h req)
    (hd : DistinctOn h.hashFunc h.replicas labels)
    (hn : ∀ n, n ∈ nodes → Node.String n ∈ labels) :
    Exact labels (AddReplicas r nodes h)
      (fun l => if contains h l = false ∧ l ∈ nodes.map Node.String then r else req l) := by
  obtain ⟨a1, a2, _, a4, a5⟩ := AddReplicas_fields r nodes h
  have hmin : (if r > h.replicas then h.replicas else r) = min r h.replicas := by
    split_ifs with hgt
    · exact (min_eq_right (Nat.le_of_lt hgt)).symm
    · exact (min_eq_left (Nat.le_of_not_lt hgt)).symm
  have he' : Exact labels { h with mu := h.mu.Lock } req :=
    he.congr rfl rfl rfl rfl
  have hfold := foldl_addNode_exact labels r (if r > h.replicas then h.replicas else r) nodes
    { h with mu := h.mu.Lock } req hmin he' hd hn
  obtain ⟨f1, f2, _⟩ := foldl_addNode (if r > h.replicas then h.replicas else r) nodes
    { h with mu := h.mu.Lock } (by rw [hmin]; exact Nat.min_le_right _ _)
  exact hfold.congr a4 a5 (a1.trans f1.symm) (a2.trans f2.symm)

theorem foldl_removeVnode_ring_nodup (s : String) (l : List Nat) (h : ConsistentHash T)
    (hk : (mapKeys h.ring).Nodup) : (mapKeys (l.foldl (removeVnode s) h).ring).Nodup := by
  rw [foldl_removeVnode_ring]
  exact nodup_mapKeys_foldl_delete _ _ hk

theorem removeNode_exact (labels : List String) (g : ConsistentHash T) (q : String → Nat)
    (s : String) (he : Exact labels g q) (hd : DistinctOn g.hashFunc g.replicas labels) :
    Exact labels (removeNode g s) q := by
  cases hc : contains g s with
  | false => rw [removeNode_absent g s hc]; exact he
  | true =>
    obtain ⟨e1, e2, _, e4, _, _, e7, _⟩ := removeNode_member g s hc
    have hsl : s ∈ labels := he.members s hc
    refine ⟨?_, ?_, ?_⟩
    · simp only [removeNode, hc, Bool.not_true, Bool.false_eq_true, if_false]
      exact foldl_removeVnode_ring_nodup s _ g he.keys_nodup
    · intro l hl
      apply he.members l
      rw [contains_iff] at hl ⊢
      obtain ⟨m, hm⟩ := hl
      rw [e4, GoMap.get?_delete] at hm
      split_ifs at hm
      exact ⟨m, hm⟩
    · intro c m
      rw [e7, e1, e2, e4]
      constructor
      · intro hcm
        by_cases hv : c ∈ vnodeHashes g.hashFunc s g.replicas
        · rw [if_pos hv] at hcm; exact absurd hcm (by simp)
        · rw [if_neg hv] at hcm
          obtain ⟨l, i, h1, h2, h3⟩ := (he.entries c m).mp hcm
          have hl : ¬ s = l := by
            intro e
            subst e
            exact hv ((mem_vnodeHashes _ _ _ _).mpr
              ⟨i, lt_of_lt_of_le h2 (Nat.min_le_right _ _), h3⟩)
          exact ⟨l, i, by rw [GoMap.get?_delete, if_neg hl]; exact h1, h2, h3⟩
      · rintro ⟨l, i, h1, h2, h3⟩
        rw [GoMap.get?_delete] at h1
        by_cases hl : s = l
        · rw [if_pos hl] at h1; exact absurd h1 (by simp)
        · rw [if_neg hl] at h1
          have hv : c ∉ vnodeHashes g.hashFunc s g.replicas := by
            intro hv
            obtain ⟨j, hj, hcj⟩ := (mem_vnodeHashes _ _ _ _).mp hv
            have hlm : l ∈ labels := he.members l ((contains_iff g l).mpr ⟨m, h1⟩)
            exact hl (hd l s i j hlm hsl (lt_of_lt_of_le h2 (Nat.min_le_right _ _)) hj
              (h3.symm.trans hcj)).1.symm
          rw [if_neg hv]
          exact (he.entries c m).mpr ⟨l, i, h1, h2, h3⟩

theorem removeNode_fields (g : ConsistentHash T) (s : String) :
    (removeNode g s).hashFunc = g.hashFunc ∧ (removeNode g s).replicas = g.replicas := by
  cases hc : contains g s with
  | false => rw [removeNode_absent g s hc]; exact ⟨rfl, rfl⟩
  | true =>
    obtain ⟨e1, e2, _⟩ := removeNode_member g s hc
    exact ⟨e1, e2⟩

theorem foldl_removeNode_exact (labels : List String) (l : List String)
    (g : ConsistentHash T) (q : String → Nat) (he : Exact labels g q)
    (hd : DistinctOn g.hashFunc g.replicas labels) :
    Exact labels (l.foldl removeNode g) q ∧
    (l.foldl removeNode g).hashFunc = g.hashFunc ∧
    (l.foldl removeNode g).replicas = g.replicas := by
  induction l generalizing g with
  | nil => exact ⟨he, rfl, rfl⟩
  | cons s l ih =>
    obtain ⟨f1, f2⟩ := removeNode_fields g s
    obtain ⟨i1, i2, i3⟩ := ih (removeNode g s) (removeNode_exact labels g q s he hd)
      (by rw [f1, f2]; exact hd)
    exact ⟨i1, i2.trans f1, i3.trans f2⟩

theorem RemoveString_exact (labels : List String) (l : List String) (h : ConsistentHash T)
    (req : String → Nat) (he : Exact labels h req)
    (hd : DistinctOn h.hashFunc h.replicas labels) :
    Exact labels (RemoveString l h) req ∧
    (RemoveString l h).hashFunc = h.hashFunc ∧ (RemoveString l h).replicas = h.replicas := by
  have he' : Exact labels { h with mu := h.mu.Lock } req := he.congr rfl rfl rfl rfl
  obtain ⟨i1, i2, i3⟩ := foldl_removeNode_exact labels l { h with mu := h.mu.Lock } req he' hd
  exact ⟨i1.congr rfl rfl rfl rfl, i2, i3⟩

theorem foldl_removeNode_fields_aux (l : List String) (g : ConsistentHash T) :
    (l.foldl removeNode g).hashFunc = g.hashFunc ∧
    (l.foldl removeNode g).replicas = g.replicas := by
  induction l generalizing g with
  | nil => exact ⟨rfl, rfl⟩
  | cons s l ih =>
    obtain ⟨f1, f2⟩ := removeNode_fields g s
    obtain ⟨i1, i2⟩ := ih (removeNode g s)
    exact ⟨i1.trans f1, i2.trans f2⟩

theorem ReachedWith.reached {labels : List String} {h : ConsistentHash T} {req : String → Nat}
    (hw : ReachedWith labels h req) : Reachable h := by
  induction hw with
  | new crc opts => exact Reachable.new crc opts
  | add nodes h req _ _ ih => exact Reachable.add nodes h ih
  | addReplicas r nodes h req _ _ ih => exact Reachable.addReplicas r nodes h ih
  | remove nodes h req _ ih => exact Reachable.remove nodes h ih
  | removeString nodes h req _ ih => exact Reachable.removeString nodes h ih

theorem ReachedWith.exact {labels : List String} {h : ConsistentHash T} {req : String → Nat}
    (hw : ReachedWith labels h req) (hd : DistinctOn h.hashFunc h.replicas labels) :
    Exact labels h req := by
  induction hw with
  | new crc opts =>
    refine ⟨by simp [New, mapKeys], fun l hl => ?_, fun c n => ?_⟩
    · simp [contains, New, GoMap.get?] at hl
    · constructor
      · intro hc; simp [New, GoMap.get?] at hc
      · rintro ⟨l, i, h1, _, _⟩; simp [New, GoMap.get?] at h1
  | add nodes h req _ hn ih =>
    obtain ⟨a1, a2, _⟩ := AddReplicas_fields h.replicas nodes h
    have hd' : DistinctOn h.hashFunc h.replicas labels := by
      have e1 : (Add nodes h).hashFunc = h.hashFunc := a1
      have e2 : (Add nodes h).replicas = h.replicas := a2
      rw [e1, e2] at hd; exact hd
    exact AddReplicas_exact labels h.replicas nodes h req (ih hd') hd' hn
  | addReplicas r nodes h req _ hn ih =>
    obtain ⟨a1, a2, _⟩ := AddReplicas_fields r nodes h
    have hd' : DistinctOn h.hashFunc h.replicas labels := by
      rw [a1, a2] at hd; exact hd
    exact AddReplicas_exact labels r nodes h req (ih hd') hd' hn
  | remove nodes h req _ ih =>
    rw [Remove_eq_RemoveString] at hd ⊢
    have hid : DistinctOn h.hashFunc h.replicas labels → _ :=
      fun hd' => RemoveString_exact labels (nodes.map Node.String) h req (ih hd') hd'
    have hf : (RemoveString (nodes.map Node.String) h).hashFunc = h.hashFunc ∧
        (RemoveString (nodes.map Node.String) h).replicas = h.replicas := by
      exact ⟨(foldl_removeNode_fields_aux (nodes.map Node.String) _).1,
        (foldl_removeNode_fields_aux (nodes.map Node.String) _).2⟩
    rw [hf.1, hf.2] at hd
    exact (hid hd).1
  | removeString nodes h req _ ih =>
    have hf : (RemoveString nodes h).hashFunc = h.hashFunc ∧
        (RemoveString nodes h).replicas = h.replicas :=
      ⟨(foldl_removeNode_fields_aux nodes _).1, (foldl_removeNode_fields_aux nodes _).2⟩
    rw [hf.1, hf.2] at hd
    exact (RemoveString_exact labels nodes h req (ih hd) hd).1

end ConsistentHash
namespace ConsistentHash

variable {T : Type} [Node T]

theorem distinctOn_of_nodup (hashFunc : HashFunc) (replicas : Nat) (labels : List String)
    (hnd : (labels.flatMap fun l => vnodeHashes hashFunc l replicas).Nodup) :
    DistinctOn hashFunc replicas labels := by
  rw [List.nodup_flatMap] at hnd
  obtain ⟨hin, hpw⟩ := hnd
  intro l₁ l₂ i₁ i₂ hm1 hm2 hi1 hi2 heq
  have hl : l₁ = l₂ := by
    by_contra hne
    have hsym : Symmetric (fun a b : String =>
        List.Disjoint (vnodeHashes hashFunc a replicas) (vnodeHashes hashFunc b replicas)) :=
      fun a b hab => hab.symm
    have hdis := List.Pairwise.forall hsym hpw hm1 hm2 hne
    exact hdis ((mem_vnodeHashes _ _ _ _).mpr ⟨i₁, hi1, rfl⟩)
      ((mem_vnodeHashes _ _ _ _).mpr ⟨i₂, hi2, heq⟩)
  subst hl
  refine ⟨rfl, ?_⟩
  have hnd1 := hin l₁ hm1
  unfold vnodeHashes at hnd1
  exact List.inj_on_of_nodup_map hnd1 (List.mem_range.mpr hi1) (List.mem_range.mpr hi2) heq

/-- With distinct virtual-node hashes, the entries of the ring map that hold a member are
the hashes of its virtual nodes below its effective replica count, once each. -/
theorem ownedEntries_exact [DecidableEq T] (labels : List String) (h : ConsistentHash T)
    (req : String → Nat) (he : Exact labels h req) (hi : Inv h)
    (hd : DistinctOn h.hashFunc h.replicas labels) (l : String) (n : T)
    (hl : GoMap.get? h.nodes l = some n) :
    ownedEntries h n = min (req l) h.replicas := by
  have hlm : l ∈ labels := he.members l ((contains_iff h l).mpr ⟨n, hl⟩)
  have hkeys : ((h.ring.filter (fun e => decide (e.2 = n))).map Prod.fst).Nodup :=
    List.Nodup.sublist (List.Sublist.map _ (List.filter_sublist _)) he.keys_nodup
  have hvals : ((List.range (min (req l) h.replicas)).map
      (fun i => h.hashFunc (getVnodeBytes l i))).Nodup := by
    apply List.Nodup.map_on _ (List.nodup_range _)
    intro i hi' j hj hij
    exact (hd l l i j hlm hlm (lt_of_lt_of_le (List.mem_range.mp hi') (Nat.min_le_right _ _))
      (lt_of_lt_of_le (List.mem_range.mp hj) (Nat.min_le_right _ _)) hij).2
  have hperm : List.Perm ((h.ring.filter (fun e => decide (e.2 = n))).map Prod.fst)
      ((List.range (min (req l) h.replicas)).map (fun i => h.hashFunc (getVnodeBytes l i))) := by
    rw [List.perm_ext_iff_of_nodup hkeys hvals]
    intro c
    simp only [List.mem_map, List.mem_filter, decide_eq_true_eq, List.mem_range]
    constructor
    · rintro ⟨e, ⟨hem, hen⟩, rfl⟩
      have hg : GoMap.get? h.ring e.1 = some n := by
        rw [← hen]
        exact (mem_iff_get? _ he.keys_nodup e.1 e.2).mp hem
      obtain ⟨l', i, h1, h2, h3⟩ := (he.entries e.1 n).mp hg
      have hll : l' = l := (hi.nodes_label l' n h1).symm.trans (hi.nodes_label l n hl)
      subst hll
      exact ⟨i, h2, h3.symm⟩
    · rintro ⟨i, hi', rfl⟩
      have hg := (he.entries (h.hashFunc (getVnodeBytes l i)) n).mpr ⟨l, i, hl, hi', rfl⟩
      exact ⟨(h.hashFunc (getVnodeBytes l i), n),
        ⟨(mem_iff_get? _ he.keys_nodup _ _).mpr hg, rfl⟩, rfl⟩
  have := hperm.length_eq
  simpa [ownedEntries] using this

set_option maxRecDepth 1000000 in
/-- C20 as stated fails: `nameHash` maps distinct strings to distinct values, and on the
reachable ring after `New`, `Add(A)` and `Add(A1)` (requested replica count 101 each, the
replica count of the ring) the member `A` owns 91 entries of the ring map, not 101; the
same with the 64-bit hash function `tailHash`. -/
theorem member_owns_91_entries :
    Function.Injective nameHash ∧
    (Reachable (Add [(⟨"A1"⟩ : testNode)] (Add [⟨"A"⟩]
        (New testNode lengthHash [WithHashFunc (some nameHash)]))) ∧
      GoMap.get? (Add [(⟨"A1"⟩ : testNode)] (Add [⟨"A"⟩]
        (New testNode lengthHash [WithHashFunc (some nameHash)]))).nodes "A" = some ⟨"A"⟩ ∧
      (New testNode lengthHash [WithHashFunc (some nameHash)]).replicas = 101 ∧
      ownedEntries (Add [(⟨"A1"⟩ : testNode)] (Add [⟨"A"⟩]
        (New testNode lengthHash [WithHashFunc (some nameHash)]))) ⟨"A"⟩ = 91) ∧
    ownedEntries (Add [(⟨"A1"⟩ : testNode)] (Add [⟨"A"⟩]
      (New testNode lengthHash [WithHashFunc (some tailHash)]))) ⟨"A"⟩ = 91 :=
  ⟨nameHash_injective,
    ⟨Reachable.add _ _ (Reachable.add _ _ (Reachable.new _ _)), by decide!, by decide,
      by decide!⟩,
    (member_owns_fewer_entries lengthHash tailHash).2.2⟩

/-- C20, amended: for a list of labels whose virtual-node hashes are pairwise distinct, in
every state reached from `New` by `Add` and `AddReplicas` calls with nodes labelled from
that list and by `Remove` and `RemoveString` calls, a member that was added with the
requested replica count `r` owns exactly `min(r, replicas)` entries of the ring map. -/
theorem member_owns_min [DecidableEq T] (labels : List String) (h : ConsistentHash T)
    (req : String → Nat) (hw : ReachedWith labels h req)
    (hd : DistinctOn h.hashFunc h.replicas labels) (l : String) (n : T)
    (hl : GoMap.get? h.nodes l = some n) :
    ownedEntries h n = min (req l) h.replicas :=
  ownedEntries_exact labels h req (hw.exact hd) hw.reached.inv.1 hd l n hl

set_option maxRecDepth 100000 in
theorem member_owns_min_witness :
    ((∃ req, ReachedWith ["X", "Y"] (RemoveString ["X"] twoRing) req ∧ req "Y" = 2) ∧
      DistinctOn (RemoveString ["X"] twoRing).hashFunc (RemoveString ["X"] twoRing).replicas
        ["X", "Y"] ∧
      GoMap.get? (RemoveString ["X"] twoRing).nodes "Y" = some ⟨"Y"⟩) ∧
    ownedEntries (RemoveString ["X"] twoRing) ⟨"Y"⟩ = min 2 101 := by
  have hd : DistinctOn (RemoveString ["X"] twoRing).hashFunc
      (RemoveString ["X"] twoRing).replicas ["X", "Y"] :=
    distinctOn_of_nodup _ _ _ (by decide!)
  have hl : GoMap.get? (RemoveString ["X"] twoRing).nodes "Y" = some ⟨"Y"⟩ := by decide!
  have hx : ∀ n : testNode, n ∈ [(⟨"X"⟩ : testNode)] → Node.String n ∈ ["X", "Y"] := by
    intro n hn
    rw [List.mem_singleton] at hn
    subst hn
    decide
  have hy : ∀ n : testNode, n ∈ [(⟨"Y"⟩ : testNode)] → Node.String n ∈ ["X", "Y"] := by
    intro n hn
    rw [List.mem_singleton] at hn
    subst hn
    decide
  have hw := ReachedWith.removeString (T := testNode) ["X"] _ _
    (ReachedWith.addReplicas 2 [⟨"Y"⟩] _ _
      (ReachedWith.addReplicas 2 [⟨"X"⟩] _ _
        (@ReachedWith.new testNode _ ["X", "Y"] lengthHash [WithHashFunc (some tailHash)]) hx)
      hy)
  exact ⟨⟨⟨_, hw, by decide!⟩, hd, hl⟩,
    (member_owns_min ["X", "Y"] _ _ hw hd "Y" ⟨"Y"⟩ hl).trans (by decide!)⟩

end ConsistentHash
